import Mathlib

/-!
Shallow embedding of the `vtt-to-md` core pipeline (src/parser.rs,
src/consolidator.rs, src/markdown.rs, src/error.rs), with theorems settling
the frozen claims about its specification.

Strings are modelled as `List Char` (Rust `String` is a sequence of Unicode
scalar values at the operations used here; all comparisons the code performs
are per-scalar, and UTF-8 byte order coincides with scalar-value order).
A file's content is modelled as the list of its lines, mirroring the
`BufRead::lines` iterator the parser consumes.
-/

/-- Unicode White_Space test, as used both by Rust `char::is_whitespace`
(`str::trim`) and by the `regex` crate's `\s` class. -/
def isWsChar (c : Char) : Bool :=
  decide (c.toNat = 32 ∨ (9 ≤ c.toNat ∧ c.toNat ≤ 13) ∨ c.toNat = 0x85 ∨
    c.toNat = 0xA0 ∨ c.toNat = 0x1680 ∨ (0x2000 ≤ c.toNat ∧ c.toNat ≤ 0x200A) ∨
    c.toNat = 0x2028 ∨ c.toNat = 0x2029 ∨ c.toNat = 0x202F ∨ c.toNat = 0x205F ∨
    c.toNat = 0x3000)

/-- Rust `str::trim`: remove leading and trailing whitespace. -/
def trimWs (l : List Char) : List Char :=
  ((l.dropWhile isWsChar).reverse.dropWhile isWsChar).reverse

/-- Boolean test that `pat` occurs at the front of `s`
(Rust `str::starts_with`, and the anchored part of regex matching). -/
def leadsWith : List Char → List Char → Bool
  | [], _ => true
  | _ :: _, [] => false
  | p :: ps, c :: cs => p == c && leadsWith ps cs

/-- Split `s` at the first occurrence of the substring `pat`, returning the
part before the occurrence and the part after it.  `none` when `pat` does not
occur.  This is leftmost-occurrence search, as performed by `str::replace`
and by the literal parts of the regexes in parser.rs. -/
def splitOnSub (pat : List Char) : List Char → Option (List Char × List Char)
  | [] => none
  | c :: rest =>
    if leadsWith pat (c :: rest) then some ([], (c :: rest).drop pat.length)
    else
      match splitOnSub pat rest with
      | some (pre, post) => some (c :: pre, post)
      | none => none

/-- Fuelled worker for `replaceAll`; each step consumes at least one source
character, so fuel `s.length` always suffices. -/
def replaceAllF (pat repl : List Char) : Nat → List Char → List Char
  | _, [] => []
  | 0, s => s
  | fuel + 1, c :: rest =>
    if pat ≠ [] ∧ leadsWith pat (c :: rest) then
      repl ++ replaceAllF pat repl fuel ((c :: rest).drop pat.length)
    else
      c :: replaceAllF pat repl fuel rest

/-- Rust `str::replace`: replace every (leftmost, non-overlapping) occurrence
of `pat` in `s` by `repl`. -/
def replaceAll (pat repl s : List Char) : List Char :=
  replaceAllF pat repl s.length s

/-- `decode_html_entities` (parser.rs): the six chained `str::replace` calls,
in the source's order. -/
def decode_html_entities (s : List Char) : List Char :=
  replaceAll ("&#x27;".data) ['\'']
    (replaceAll ("&#39;".data) ['\'']
      (replaceAll ("&quot;".data) ['"']
        (replaceAll ("&gt;".data) ['>']
          (replaceAll ("&lt;".data) ['<']
            (replaceAll ("&amp;".data) ['&'] s)))))

/-- Fuelled worker for `stripTags`.  At a `<` the regex `<[^>]+>` matches
exactly when a later `>` exists with at least one character in between; the
match extends to the first such `>`, and is removed. -/
def stripTagsF : Nat → List Char → List Char
  | _, [] => []
  | 0, s => s
  | fuel + 1, c :: rest =>
    if c = '<' then
      let nm := rest.takeWhile (fun x => x != '>')
      if nm ≠ [] ∧ nm.length < rest.length then
        stripTagsF fuel (rest.drop (nm.length + 1))
      else
        c :: stripTagsF fuel rest
    else
      c :: stripTagsF fuel rest

/-- `Regex::new(r"<[^>]+>")::replace_all(text, "")` from `clean_text`. -/
def stripTags (s : List Char) : List Char :=
  stripTagsF s.length s

/-- The whitespace-collapsing pass of `clean_text`
(`Regex::new(r"\s+")::replace_all(text, " ")`): every maximal run of
whitespace becomes a single space. -/
def collapseWs : List Char → List Char
  | [] => []
  | [c] => if isWsChar c then [' '] else [c]
  | a :: b :: rest =>
    if isWsChar a && isWsChar b then collapseWs (b :: rest)
    else (if isWsChar a then ' ' else a) :: collapseWs (b :: rest)

/-- `clean_text` (parser.rs): strip HTML-like tags, decode entities, collapse
whitespace runs to one space, trim. -/
def clean_text (s : List Char) : List Char :=
  trimWs (collapseWs (decode_html_entities (stripTags s)))

example : clean_text ("<b>Bold</b> text".data) = "Bold text".data := by decide
example : clean_text ("A &amp; B".data) = "A & B".data := by decide
example : clean_text ("Hello   world".data) = "Hello world".data := by decide
example : clean_text ("Hello\n\nworld".data) = "Hello world".data := by decide

/-- Head-is-whitespace test, the `\s+` requirement after `<v` in the voice-tag
regexes. -/
def headIsWs : List Char → Bool
  | [] => false
  | c :: _ => isWsChar c

/-- Attempt to match the voice-tag regex `(?s)<v\s+([^>]*)>(.*?)</v>` at the
start of `l`: after `<v` at least one whitespace character, then the greedy
whitespace run, then the name capture up to the first `>`, then the lazy body
capture up to the first `</v>`.  Returns (raw name capture, body capture). -/
def tryClosedNamedAt (l : List Char) : Option (List Char × List Char) :=
  match l with
  | c1 :: c2 :: r =>
    if c1 = '<' ∧ c2 = 'v' ∧ headIsWs r = true then
      let r2 := r.dropWhile isWsChar
      let nm := r2.takeWhile (fun c => c != '>')
      match r2.dropWhile (fun c => c != '>') with
      | _ :: after =>
        match splitOnSub ("</v>".data) after with
        | some (content, _) => some (nm, content)
        | none => none
      | [] => none
    else none
  | _ => none

/-- Attempt to match `(?s)<v>(.*?)</v>` at the start of `l`. -/
def tryEmptyAt (l : List Char) : Option (List Char) :=
  match l with
  | c1 :: c2 :: c3 :: r =>
    if c1 = '<' ∧ c2 = 'v' ∧ c3 = '>' then
      match splitOnSub ("</v>".data) r with
      | some (content, _) => some content
      | none => none
    else none
  | _ => none

/-- Attempt to match `(?s)<v\s+([^>]*)>(.*)` at the start of `l`: like the
closed form, but the body capture is greedy to the end of the text. -/
def tryOpenNamedAt (l : List Char) : Option (List Char × List Char) :=
  match l with
  | c1 :: c2 :: r =>
    if c1 = '<' ∧ c2 = 'v' ∧ headIsWs r = true then
      let r2 := r.dropWhile isWsChar
      let nm := r2.takeWhile (fun c => c != '>')
      match r2.dropWhile (fun c => c != '>') with
      | _ :: after => some (nm, after)
      | [] => none
    else none
  | _ => none

/-- Leftmost-match search: try the matcher at every position, earliest first
(`Regex::captures` finds the leftmost match). -/
def searchPos (f : List Char → Option α) : List Char → Option α
  | [] => none
  | c :: r =>
    match f (c :: r) with
    | some x => some x
    | none => searchPos f r

/-- `extract_speaker_and_text` (parser.rs): three-tier voice-tag match in
priority order — closed tag with name, closed tag with empty name, open tag —
with the whole text as content and no speaker when none matches. -/
def extract_speaker_and_text (t : List Char) : Option (List Char) × List Char :=
  match searchPos tryClosedNamedAt t with
  | some (nm, content) =>
    let sp := trimWs nm
    (if sp = [] then none else some sp, content)
  | none =>
    match searchPos tryEmptyAt t with
    | some content => (none, content)
    | none =>
      match searchPos tryOpenNamedAt t with
      | some (nm, content) =>
        let sp := trimWs nm
        (if sp = [] then none else some sp, content)
      | none => (none, t)

example : extract_speaker_and_text ("<v John Doe>Hello world</v>".data)
    = (some ("John Doe".data), "Hello world".data) := by decide
example : extract_speaker_and_text ("Hello world".data)
    = (none, "Hello world".data) := by decide
example : extract_speaker_and_text ("<v>Hello world</v>".data)
    = (none, "Hello world".data) := by decide
example : extract_speaker_and_text ("<v Jane Smith>Hello world".data)
    = (some ("Jane Smith".data), "Hello world".data) := by decide
example : extract_speaker_and_text ("<v Alice>Line one\nLine two</v>".data)
    = (some ("Alice".data), "Line one\nLine two".data) := by decide
example : extract_speaker_and_text ("<v   >Text.</v>".data)
    = (none, "Text.".data) := by decide

/-- Markdown-significant characters escaped by `escape_markdown`:
`* _ # [ ] ( ) { } ! > | ` \` (listed by code point to match the source's
character alternatives). -/
def isMdSpecial (c : Char) : Bool :=
  decide (c.toNat = 42 ∨ c.toNat = 95 ∨ c.toNat = 35 ∨ c.toNat = 91 ∨
    c.toNat = 93 ∨ c.toNat = 40 ∨ c.toNat = 41 ∨ c.toNat = 123 ∨
    c.toNat = 125 ∨ c.toNat = 33 ∨ c.toNat = 62 ∨ c.toNat = 124 ∨
    c.toNat = 96 ∨ c.toNat = 92)

/-- `escape_markdown` (parser.rs): prefix each Markdown-significant character
with a backslash, leave every other character unchanged. -/
def escape_markdown : List Char → List Char
  | [] => []
  | c :: rest =>
    if isMdSpecial c then '\\' :: c :: escape_markdown rest
    else c :: escape_markdown rest

/-- Modelled from the spec: the Unicode canonical-composition (NFC) pass of
the external `unicode_normalization` crate, which is not part of this
repository.  NFC is the identity on every string that contains no character
with a canonical decomposition and no combining mark — in particular on all
ASCII text and on all-whitespace text, which covers every string this
development applies it to — so it is modelled as the identity. -/
def nfc (l : List Char) : List Char := l

/-- `sanitize_speaker_name` (parser.rs): strip `@`, NFC-normalize, trim,
return `none` if empty, otherwise escape Markdown characters. -/
def sanitize_speaker_name (name : List Char) : Option (List Char) :=
  let n1 := name.filter (fun c => c != '@')
  let n2 := trimWs (nfc n1)
  if n2 = [] then none else some (escape_markdown n2)

example : sanitize_speaker_name ("@anonymous".data) = some ("anonymous".data) := by decide
example : sanitize_speaker_name ("John*Doe".data) = some ("John\\*Doe".data) := by decide
example : sanitize_speaker_name ("   ".data) = none := by decide
example : sanitize_speaker_name ([]) = none := by decide
example : sanitize_speaker_name ("John Doe".data) = some ("John Doe".data) := by decide

/-- One VTT cue: optional start timestamp, optional sanitized speaker,
cleaned text (`Cue` in parser.rs). -/
structure Cue where
  timestamp : Option (List Char)
  speaker : Option (List Char)
  text : List Char
deriving DecidableEq

/-- Parse result (`VttDocument` in parser.rs). -/
structure VttDocument where
  cues : List Cue
  has_voice_tags : Bool
deriving DecidableEq

/-- The error enumeration of error.rs (payloads beyond what the claims need
are reduced to the reason or path string). -/
inductive VttError where
  | fileNotFound (path : List Char)
  | permissionDenied (path : List Char)
  | parseError (reason : List Char)
  | outputExists (path : List Char)
  | sameFile (path : List Char)
  | writeError (path : List Char)
  | ioError
  | usageError (reason : List Char)
deriving DecidableEq

/-- Outcome of `VttDocument::parse` on an already-read file
(`Result<VttDocument, VttError>`). -/
inductive VttResult where
  | ok (doc : VttDocument)
  | err (e : VttError)
deriving DecidableEq

/-- Match `\d{2}:\d{2}:\d{2}\.\d{3}` at the front of `l`, returning the
matched 12 characters and the remainder. -/
def takeStamp : List Char → Option (List Char × List Char)
  | a :: b :: ':' :: c :: d :: ':' :: e :: f :: '.' :: g :: h :: i :: rest =>
    if a.isDigit ∧ b.isDigit ∧ c.isDigit ∧ d.isDigit ∧ e.isDigit ∧ f.isDigit ∧
        g.isDigit ∧ h.isDigit ∧ i.isDigit then
      some ([a, b, ':', c, d, ':', e, f, '.', g, h, i], rest)
    else none
  | _ => none

/-- The timing-line regex
`^\s*(\d{2}:\d{2}:\d{2}\.\d{3})\s*-->\s*(\d{2}:\d{2}:\d{2}\.\d{3})` of
`parse_cues`, returning the first capture (the start timestamp).  Anything
after the second stamp (cue settings) is ignored. -/
def parseTimingLine (l : List Char) : Option (List Char) :=
  match takeStamp (l.dropWhile isWsChar) with
  | none => none
  | some (ts1, r1) =>
    match r1.dropWhile isWsChar with
    | '-' :: '-' :: '>' :: r3 =>
      match takeStamp (r3.dropWhile isWsChar) with
      | some _ => some ts1
      | none => none
    | _ => none

example : parseTimingLine ("00:00:01.000 --> 00:00:03.000".data)
    = some ("00:00:01.000".data) := by decide
example : parseTimingLine ("  00:00:01.000-->00:00:03.000 align:start".data)
    = some ("00:00:01.000".data) := by decide
example : parseTimingLine ("1".data) = none := by decide
example : parseTimingLine ("00:00:01.00 --> 00:00:03.000".data) = none := by decide

/-- The metadata-block trigger of `parse_cues`: the trimmed line begins with
`NOTE`, `STYLE` or `REGION`. -/
def isMetaMarker (l : List Char) : Bool :=
  leadsWith ("NOTE".data) (trimWs l) || leadsWith ("STYLE".data) (trimWs l) ||
    leadsWith ("REGION".data) (trimWs l)

/-- `save_cue` (parser.rs): join the buffered lines with newlines, extract the
speaker, clean the text, drop the cue if the cleaned text is empty, otherwise
emit it with the sanitized speaker. -/
def save_cue (ts : Option (List Char)) (txt : List (List Char)) : List Cue :=
  let combined := List.intercalate ['\n'] txt
  let ex := extract_speaker_and_text combined
  let cleaned := clean_text ex.2
  if trimWs cleaned = [] then []
  else [⟨ts, ex.1.bind sanitize_speaker_name, cleaned⟩]

/-- The line-scanning loop of `parse_cues`, one branch per source conditional,
in the source's order: metadata marker, timing line, blank line, metadata
skip, stray-identifier skip, text accumulation.  State: open timestamp,
buffered text lines, metadata-block flag. -/
def scanGo (ts : Option (List Char)) (txt : List (List Char)) (meta : Bool) :
    List (List Char) → List Cue
  | [] => if txt ≠ [] then save_cue ts txt else []
  | l :: rest =>
    if isMetaMarker l then
      scanGo ts txt true rest
    else
      match parseTimingLine l with
      | some t =>
        (if txt ≠ [] then save_cue ts txt else []) ++ scanGo (some t) [] false rest
      | none =>
        if trimWs l = [] then
          if txt ≠ [] then save_cue ts txt ++ scanGo none [] false rest
          else scanGo ts txt false rest
        else if meta then scanGo ts txt meta rest
        else if ts = none ∧ txt ≠ [] then scanGo ts txt meta rest
        else if ts.isSome then scanGo ts (txt ++ [l]) meta rest
        else scanGo ts txt meta rest

/-- Lexicographic strict order on timestamp strings, by scalar value
(Rust `String` `Ord`; UTF-8 byte order equals scalar-value order). -/
def lexLt : List Char → List Char → Bool
  | [], [] => false
  | [], _ :: _ => true
  | _ :: _, [] => false
  | a :: as, b :: bs =>
    if a.toNat < b.toNat then true
    else if b.toNat < a.toNat then false
    else lexLt as bs

/-- The strict part of the cue comparator in `parse_cues`: `Less` exactly for
two timestamps in ascending order, or a timestamped cue against a
timestamp-less one. -/
def cueLt (a b : Cue) : Bool :=
  match a.timestamp, b.timestamp with
  | some x, some y => lexLt x y
  | some _, none => true
  | none, some _ => false
  | none, none => false

/-- Non-strict version of the comparator (`Less` or `Equal`). -/
def cueLe (a b : Cue) : Bool := !(cueLt b a)

/-- Stable insertion: place `a` before the first element it compares
less-or-equal to, i.e. after every element strictly below it and after every
element tied with it. -/
def insertCue (a : Cue) : List Cue → List Cue
  | [] => [a]
  | b :: l => if cueLe a b then a :: b :: l else b :: insertCue a l

/-- The `cues.sort_by(..)` call of `parse_cues`.  Rust `sort_by` is a stable
sort; the stable sorted permutation under a total preorder is unique, and this
insertion sort (processing from the right, inserting before ties) computes
exactly it. -/
def sortCues (l : List Cue) : List Cue := l.foldr insertCue []

/-- `parse_cues` (parser.rs): scan the lines after the header, compute
`has_voice_tags`, and stable-sort the cues by timestamp. -/
def parse_cues (lines : List (List Char)) : List Cue × Bool :=
  (sortCues (scanGo none [] false lines),
    (scanGo none [] false lines).any (fun c => c.speaker.isSome))

/-- `VttDocument::parse` after the file has been read into lines: empty input
is rejected with the "Empty file" reason, a first line whose trim does not
begin with `WEBVTT` with the "Missing WEBVTT header" reason; otherwise the
remaining lines are scanned into a document. -/
def vttParse (lines : List (List Char)) : VttResult :=
  match lines with
  | [] => .err (.parseError ("Empty file".data))
  | first :: rest =>
    if leadsWith ("WEBVTT".data) (trimWs first) then
      .ok ⟨(parse_cues rest).1, (parse_cues rest).2⟩
    else .err (.parseError ("Missing WEBVTT header".data))

example :
    vttParse ["WEBVTT".data, [], "1".data, "00:00:01.000 --> 00:00:03.000".data,
      "<v Alice>Hello, this is Alice speaking.</v>".data, [], "2".data,
      "00:00:04.000 --> 00:00:06.000".data, "<v Bob>Hi Alice, this is Bob.</v>".data]
    = .ok ⟨[⟨some ("00:00:01.000".data), some ("Alice".data), "Hello, this is Alice speaking.".data⟩,
            ⟨some ("00:00:04.000".data), some ("Bob".data), "Hi Alice, this is Bob.".data⟩], true⟩ := by
  decide

example :
    vttParse ["WEBVTT".data, [], "NOTE This is a comment".data, [],
      "STYLE".data, "::cue".data, [],
      "00:00:01.000 --> 00:00:03.000".data, "<v Alice>Parsed.</v>".data]
    = .ok ⟨[⟨some ("00:00:01.000".data), some ("Alice".data), "Parsed.".data⟩], true⟩ := by
  decide

/-- Timestamp-inclusion policy (`TimestampMode` in cli.rs). -/
inductive TimestampMode where
  | none
  | first
  | each
deriving DecidableEq

/-- One consolidated speaker paragraph (`SpeakerSegment` in consolidator.rs). -/
structure SpeakerSegment where
  speaker : List Char
  text : List Char
  timestamp : Option (List Char)
  timestamps : List (List Char)
deriving DecidableEq

/-- `join_texts` (consolidator.rs): trim each entry, skip empty entries, join
the rest with single spaces. -/
def join_texts : List (List Char) → List Char
  | [] => []
  | t :: rest =>
    let tr := trimWs t
    if tr = [] then join_texts rest
    else
      match join_texts rest with
      | [] => tr
      | joined => tr ++ ' ' :: joined

example : join_texts ["First.".data, "".data, "Third.".data] = "First. Third.".data := by decide
example : join_texts ["  First.  ".data, "  Second.  ".data] = "First. Second.".data := by decide

/-- Close a run: the segment a run emits, with the timestamp field governed by
the policy (`None` for policies `none` and `each`, the run's first timestamp
for `first`) and the always-collected per-cue timestamp list. -/
def closeRun (mode : TimestampMode) (sp : List Char) (texts tss : List (List Char))
    (fts : Option (List Char)) : SpeakerSegment :=
  ⟨sp, join_texts texts,
    (match mode with
     | .none => Option.none
     | .first => fts
     | .each => Option.none), tss⟩

/-- The loop of `consolidate_cues`, with the accumulators as arguments:
current run's speaker (if a run is open), its collected texts and timestamps,
and the timestamp of its first cue.  Blank cues are skipped; a cue whose
effective speaker differs from the open run's closes that run. -/
def consolidateGo (lbl : List Char) (mode : TimestampMode)
    (cur : Option (List Char)) (texts tss : List (List Char))
    (fts : Option (List Char)) : List Cue → List SpeakerSegment
  | [] =>
    match cur with
    | Option.none => []
    | some sp => [closeRun mode sp texts tss fts]
  | cue :: rest =>
    if trimWs cue.text = [] then consolidateGo lbl mode cur texts tss fts rest
    else
      let sp := cue.speaker.getD lbl
      let tss1 := tss ++ (match cue.timestamp with | some t => [t] | Option.none => [])
      if cur = some sp then
        consolidateGo lbl mode cur (texts ++ [cue.text]) tss1 fts rest
      else
        match cur with
        | Option.none =>
          consolidateGo lbl mode (some sp) (texts ++ [cue.text]) tss1 cue.timestamp rest
        | some prev =>
          closeRun mode prev texts tss fts ::
            consolidateGo lbl mode (some sp) [cue.text]
              (match cue.timestamp with | some t => [t] | Option.none => [])
              cue.timestamp rest

/-- `consolidate_cues` (consolidator.rs). -/
def consolidate_cues (cues : List Cue) (lbl : List Char) (mode : TimestampMode) :
    List SpeakerSegment :=
  consolidateGo lbl mode Option.none [] [] Option.none cues

example :
    consolidate_cues
      [⟨some ("00:00:01.000".data), some ("Alice".data), "Hello.".data⟩,
       ⟨some ("00:00:02.000".data), some ("Alice".data), "How are you?".data⟩,
       ⟨some ("00:00:03.000".data), some ("Bob".data), "Fine!".data⟩]
      ("Unknown".data) TimestampMode.first
    = [⟨"Alice".data, "Hello. How are you?".data, some ("00:00:01.000".data),
        ["00:00:01.000".data, "00:00:02.000".data]⟩,
       ⟨"Bob".data, "Fine!".data, some ("00:00:03.000".data), ["00:00:03.000".data]⟩] := by
  decide

example :
    consolidate_cues
      [⟨some ("00:00:01.000".data), Option.none, "No speaker.".data⟩,
       ⟨some ("00:00:02.000".data), Option.none, "Neither.".data⟩]
      ("Narrator".data) TimestampMode.none
    = [⟨"Narrator".data, "No speaker. Neither.".data, Option.none,
        ["00:00:01.000".data, "00:00:02.000".data]⟩] := by
  decide

/-- Rendering of one segment (the per-segment `match` in `format_markdown`). -/
def fmtSegment (mode : TimestampMode) (seg : SpeakerSegment) : List Char :=
  match mode with
  | .none => "**".data ++ seg.speaker ++ ":** ".data ++ seg.text ++ "\n\n".data
  | .first =>
    match seg.timestamp with
    | some ts =>
      "[".data ++ ts ++ "] **".data ++ seg.speaker ++ ":** ".data ++ seg.text ++ "\n\n".data
    | Option.none => "**".data ++ seg.speaker ++ ":** ".data ++ seg.text ++ "\n\n".data
  | .each =>
    match seg.timestamps with
    | ts :: _ =>
      "[".data ++ ts ++ "] **".data ++ seg.speaker ++ ":** ".data ++ seg.text ++ "\n\n".data
    | [] => "**".data ++ seg.speaker ++ ":** ".data ++ seg.text ++ "\n\n".data

/-- `format_markdown` (markdown.rs): concatenate one rendered paragraph plus
blank line per segment, in order. -/
def format_markdown : List SpeakerSegment → TimestampMode → List Char
  | [], _ => []
  | seg :: rest, mode => fmtSegment mode seg ++ format_markdown rest mode

example :
    format_markdown
      [⟨"Alice".data, "Hello world.".data, Option.none, []⟩,
       ⟨"Bob".data, "Hi Alice!".data, Option.none, []⟩] TimestampMode.none
    = "**Alice:** Hello world.\n\n**Bob:** Hi Alice!\n\n".data := by decide

example :
    format_markdown
      [⟨"Alice".data, "Hello world. How are you?".data, Option.none,
        ["00:00:01.000".data, "00:00:02.000".data]⟩] TimestampMode.each
    = "[00:00:01.000] **Alice:** Hello world. How are you?\n\n".data := by decide

/-- Collapse adjacent duplicates: one representative per maximal run of equal
adjacent elements.  Used to state the consolidation adjacency invariant. -/
def dedupAdj : List (List Char) → List (List Char)
  | [] => []
  | [a] => [a]
  | a :: b :: r => if a = b then dedupAdj (b :: r) else a :: dedupAdj (b :: r)

/-- The effective speaker of each cue the consolidator actually processes:
blank-text cues are skipped, and a cue without a speaker gets the placeholder
label. -/
def effectiveSpeakers (lbl : List Char) (cues : List Cue) : List (List Char) :=
  cues.filterMap
    (fun c => if trimWs c.text = [] then Option.none else some (c.speaker.getD lbl))

/-- No position of `l` matches the tag regex `<[^>]+>`: every occurrence of
`<` is either immediately followed by `>` or has no `>` anywhere after it.
This is the class of strings on which tag stripping acts as the identity. -/
def noTagMatch (l : List Char) : Prop :=
  ∀ pre suf : List Char, l = pre ++ '<' :: suf →
    ('>' ∉ suf) ∨ (∃ suf', suf = '>' :: suf')

/-! ### Basic lemmas about the text utilities -/

theorem leadsWith_append_self : ∀ (p t : List Char), leadsWith p (p ++ t) = true
  | [], _ => rfl
  | c :: cs, t => by simp [leadsWith, leadsWith_append_self cs t]

theorem leadsWith_head_ne {p c : Char} (ps cs : List Char) (h : c ≠ p) :
    leadsWith (p :: ps) (c :: cs) = false := by
  simp [leadsWith]
  intro hpc
  exact absurd hpc.symm h

theorem splitOnSub_none (p0 : Char) (ps : List Char) :
    ∀ s : List Char, (∀ c ∈ s, c ≠ p0) → splitOnSub (p0 :: ps) s = none := by
  intro s
  induction s with
  | nil => intro _; rfl
  | cons c rest ih =>
    intro h
    have hc : c ≠ p0 := h c (by simp)
    simp only [splitOnSub, leadsWith_head_ne ps rest hc, if_neg Bool.false_ne_true]
    rw [ih (fun x hx => h x (by simp [hx]))]

theorem splitOnSub_append_self (p0 : Char) (ps : List Char) :
    ∀ (content tail : List Char), (∀ c ∈ content, c ≠ p0) →
      splitOnSub (p0 :: ps) (content ++ (p0 :: ps) ++ tail) = some (content, tail) := by
  intro content
  induction content with
  | nil =>
    intro tail _
    show splitOnSub (p0 :: ps) ((p0 :: ps) ++ tail) = some ([], tail)
    have : (p0 :: ps) ++ tail = p0 :: (ps ++ tail) := rfl
    rw [this]
    simp only [splitOnSub]
    rw [show p0 :: (ps ++ tail) = (p0 :: ps) ++ tail from rfl,
      if_pos (leadsWith_append_self (p0 :: ps) tail), List.drop_left]
  | cons c cs ih =>
    intro tail h
    have hc : c ≠ p0 := h c (by simp)
    show splitOnSub (p0 :: ps) (c :: (cs ++ (p0 :: ps) ++ tail)) = some (c :: cs, tail)
    simp only [splitOnSub, leadsWith_head_ne ps _ hc, if_neg Bool.false_ne_true]
    rw [ih tail (fun x hx => h x (by simp [hx]))]

theorem replaceAllF_id (p0 : Char) (ps repl : List Char) :
    ∀ (fuel : Nat) (s : List Char), (∀ c ∈ s, c ≠ p0) →
      replaceAllF (p0 :: ps) repl fuel s = s := by
  intro fuel
  induction fuel with
  | zero => intro s _; cases s <;> rfl
  | succ n ih =>
    intro s h
    cases s with
    | nil => rfl
    | cons c rest =>
      have hc : c ≠ p0 := h c (by simp)
      simp only [replaceAllF, leadsWith_head_ne ps rest hc, Bool.false_eq_true, and_false,
        if_false]
      rw [ih rest (fun x hx => h x (by simp [hx]))]

theorem replaceAll_id (p0 : Char) (ps repl : List Char) (s : List Char)
    (h : ∀ c ∈ s, c ≠ p0) : replaceAll (p0 :: ps) repl s = s :=
  replaceAllF_id p0 ps repl s.length s h

theorem decode_html_entities_id (s : List Char) (h : '&' ∉ s) :
    decode_html_entities s = s := by
  have h' : ∀ c ∈ s, c ≠ '&' := fun c hc he => h (he ▸ hc)
  unfold decode_html_entities
  rw [show ("&amp;".data) = '&' :: "amp;".data from rfl, replaceAll_id _ _ _ _ h',
    show ("&lt;".data) = '&' :: "lt;".data from rfl, replaceAll_id _ _ _ _ h',
    show ("&gt;".data) = '&' :: "gt;".data from rfl, replaceAll_id _ _ _ _ h',
    show ("&quot;".data) = '&' :: "quot;".data from rfl, replaceAll_id _ _ _ _ h',
    show ("&#39;".data) = '&' :: "#39;".data from rfl, replaceAll_id _ _ _ _ h',
    show ("&#x27;".data) = '&' :: "#x27;".data from rfl, replaceAll_id _ _ _ _ h']

theorem stripTagsF_id : ∀ (fuel : Nat) (s : List Char), '<' ∉ s →
    stripTagsF fuel s = s := by
  intro fuel
  induction fuel with
  | zero => intro s _; cases s <;> rfl
  | succ n ih =>
    intro s h
    cases s with
    | nil => rfl
    | cons c rest =>
      have hc : c ≠ '<' := fun he => h (he ▸ List.mem_cons_self c rest)
      simp only [stripTagsF, if_neg hc]
      rw [ih rest (fun hm => h (List.mem_cons_of_mem c hm))]

theorem stripTags_id (s : List Char) (h : '<' ∉ s) : stripTags s = s :=
  stripTagsF_id s.length s h

/-! ### Whitespace-normalization lemmas (for the idempotence analysis) -/

theorem mem_collapseWs : ∀ (l : List Char) (c : Char), c ∈ collapseWs l → c ∈ l ∨ c = ' ' := by
  intro l
  induction l with
  | nil => intro c hc; simp [collapseWs] at hc
  | cons a t ih =>
    intro c hc
    cases t with
    | nil =>
      simp only [collapseWs] at hc
      by_cases ha : isWsChar a = true
      · rw [if_pos ha] at hc; simp at hc; right; exact hc
      · rw [if_neg ha] at hc; simp at hc; left; simp [hc]
    | cons b r =>
      simp only [collapseWs] at hc
      by_cases hab : (isWsChar a && isWsChar b) = true
      · rw [if_pos hab] at hc
        rcases ih c hc with h | h
        · left; exact List.mem_cons_of_mem a h
        · right; exact h
      · rw [if_neg hab] at hc
        rcases List.mem_cons.mp hc with h | h
        · by_cases ha : isWsChar a = true
          · rw [if_pos ha] at h; right; exact h
          · rw [if_neg ha] at h; left; simp [h]
        · rcases ih c h with h' | h'
          · left; exact List.mem_cons_of_mem a h'
          · right; exact h'

/-- After collapsing, every whitespace character in the result is a plain
space. -/
theorem collapseWs_allSpace : ∀ (l : List Char) (c : Char),
    c ∈ collapseWs l → isWsChar c = true → c = ' ' := by
  intro l
  induction l with
  | nil => intro c hc; simp [collapseWs] at hc
  | cons a t ih =>
    intro c hc hw
    cases t with
    | nil =>
      simp only [collapseWs] at hc
      by_cases ha : isWsChar a = true
      · rw [if_pos ha] at hc; simpa using hc
      · rw [if_neg ha] at hc; simp at hc; subst hc; exact absurd hw ha
    | cons b r =>
      simp only [collapseWs] at hc
      by_cases hab : (isWsChar a && isWsChar b) = true
      · rw [if_pos hab] at hc; exact ih c hc hw
      · rw [if_neg hab] at hc
        rcases List.mem_cons.mp hc with h | h
        · by_cases ha : isWsChar a = true
          · rw [if_pos ha] at h; exact h
          · rw [if_neg ha] at h; subst h; exact absurd hw ha
        · exact ih c h hw

/-- Head of a collapse of a list with non-whitespace head. -/
theorem collapseWs_cons_of_head (b : Char) (r : List Char) (h : isWsChar b = false) :
    ∃ u, collapseWs (b :: r) = b :: u := by
  cases r with
  | nil => exact ⟨[], by simp [collapseWs, h]⟩
  | cons c r' => exact ⟨collapseWs (c :: r'), by simp [collapseWs, h]⟩

/-- After collapsing, no two adjacent characters are both whitespace. -/
theorem collapseWs_chain : ∀ l : List Char,
    List.Chain' (fun a b => ¬(isWsChar a = true ∧ isWsChar b = true)) (collapseWs l) := by
  intro l
  induction l with
  | nil => simp [collapseWs]
  | cons a t ih =>
    cases t with
    | nil =>
      simp only [collapseWs]
      by_cases ha : isWsChar a = true
      · rw [if_pos ha]; simp
      · rw [if_neg ha]; simp
    | cons b r =>
      simp only [collapseWs]
      by_cases hab : (isWsChar a && isWsChar b) = true
      · rw [if_pos hab]; exact ih
      · rw [if_neg hab]
        rw [List.chain'_cons']
        refine ⟨?_, ih⟩
        intro hd hhd
        by_cases hb : isWsChar b = true
        · have ha : isWsChar a = false := by
            cases hA : isWsChar a with
            | false => rfl
            | true => exact absurd (by rw [hA, hb]; rfl) hab
          rw [if_neg (by simp [ha])]
          intro hcontra
          rw [ha] at hcontra
          exact Bool.false_ne_true hcontra.1
        · obtain ⟨u, hu⟩ := collapseWs_cons_of_head b r (by simpa using hb)
          rw [hu] at hhd
          simp at hhd
          subst hhd
          intro hcontra
          exact hb hcontra.2

/-- A list whose whitespace is single spaces with no two adjacent is a
fixpoint of collapsing. -/
theorem collapseWs_of_flat : ∀ l : List Char,
    (∀ c ∈ l, isWsChar c = true → c = ' ') →
    List.Chain' (fun a b => ¬(isWsChar a = true ∧ isWsChar b = true)) l →
    collapseWs l = l := by
  intro l
  induction l with
  | nil => intro _ _; rfl
  | cons a t ih =>
    intro hs hch
    cases t with
    | nil =>
      simp only [collapseWs]
      by_cases ha : isWsChar a = true
      · rw [if_pos ha, hs a (by simp) ha]
      · rw [if_neg ha]
    | cons b r =>
      have hrel : ¬(isWsChar a = true ∧ isWsChar b = true) :=
        (List.chain'_cons.mp hch).1
      have hab : (isWsChar a && isWsChar b) ≠ true := by
        intro hcontra
        exact hrel (by simpa using hcontra)
      simp only [collapseWs, if_neg hab]
      have htail : collapseWs (b :: r) = b :: r :=
        ih (fun c hc => hs c (List.mem_cons_of_mem a hc)) (List.chain'_cons.mp hch).2
      rw [htail]
      by_cases ha : isWsChar a = true
      · rw [if_pos ha, hs a (by simp) ha]
      · rw [if_neg ha]

theorem chain'_dropWhile {R : Char → Char → Prop} (p : Char → Bool) :
    ∀ l : List Char, List.Chain' R l → List.Chain' R (l.dropWhile p) := by
  intro l
  induction l with
  | nil => intro h; exact h
  | cons a t ih =>
    intro h
    by_cases hp : p a = true
    · rw [List.dropWhile_cons_of_pos hp]; exact ih h.tail
    · rw [List.dropWhile_cons_of_neg hp]; exact h

theorem head_dropWhile_false (p : Char → Bool) :
    ∀ (l : List Char) (c : Char) (r : List Char), l.dropWhile p = c :: r → p c = false := by
  intro l
  induction l with
  | nil => intro c r h; simp at h
  | cons a t ih =>
    intro c r h
    by_cases hp : p a = true
    · rw [List.dropWhile_cons_of_pos hp] at h
      exact ih c r h
    · rw [List.dropWhile_cons_of_neg hp] at h
      rw [← (List.cons.injEq .. |>.mp h).1]
      simpa using hp

theorem mem_of_dropWhile (p : Char → Bool) (l : List Char) (c : Char)
    (h : c ∈ l.dropWhile p) : c ∈ l := by
  have he : l.takeWhile p ++ l.dropWhile p = l := List.takeWhile_append_dropWhile p l
  rw [← he]
  exact List.mem_append_right _ h

theorem mem_of_trimWs (l : List Char) (c : Char) (h : c ∈ trimWs l) : c ∈ l := by
  unfold trimWs at h
  rw [List.mem_reverse] at h
  have h1 := mem_of_dropWhile _ _ _ h
  rw [List.mem_reverse] at h1
  exact mem_of_dropWhile _ _ _ h1

/-- Trimming is idempotent. -/
theorem trimWs_idem (w : List Char) : trimWs (trimWs w) = trimWs w := by
  by_cases hynil : (w.dropWhile isWsChar).reverse.dropWhile isWsChar = []
  · have h0 : trimWs w = [] := by unfold trimWs; rw [hynil]; rfl
    rw [h0]
    rfl
  · cases hY : (w.dropWhile isWsChar).reverse.dropWhile isWsChar with
    | nil => exact absurd hY hynil
    | cons c ys =>
      have hchead : isWsChar c = false := head_dropWhile_false isWsChar _ c ys hY
      have htrim : trimWs w = (c :: ys).reverse := by unfold trimWs; rw [hY]
      have hsplit : (w.dropWhile isWsChar).reverse
          = (w.dropWhile isWsChar).reverse.takeWhile isWsChar ++ (c :: ys) := by
        rw [← hY]
        exact (List.takeWhile_append_dropWhile isWsChar _).symm
      have hu_eq : w.dropWhile isWsChar
          = (c :: ys).reverse ++ ((w.dropWhile isWsChar).reverse.takeWhile isWsChar).reverse := by
        have := congrArg List.reverse hsplit
        simpa [List.reverse_append] using this
      cases hR : (c :: ys).reverse with
      | nil => simp at hR
      | cons d ds =>
        have hd : isWsChar d = false :=
          head_dropWhile_false isWsChar w d _ (by rw [hu_eq, hR]; rfl)
        rw [htrim]
        unfold trimWs
        rw [hR, List.dropWhile_cons_of_neg (by simp [hd]), ← hR, List.reverse_reverse,
          List.dropWhile_cons_of_neg (by simp [hchead])]

theorem collapseWs_trim_collapse (t : List Char) :
    collapseWs (trimWs (collapseWs t)) = trimWs (collapseWs t) := by
  apply collapseWs_of_flat
  · intro c hc hw
    exact collapseWs_allSpace t c (mem_of_trimWs _ c hc) hw
  · have h0 := collapseWs_chain t
    unfold trimWs
    have h1 := chain'_dropWhile isWsChar _ h0
    have h1r : List.Chain' (fun a b => ¬(isWsChar a = true ∧ isWsChar b = true))
        ((collapseWs t).dropWhile isWsChar).reverse := by
      rw [List.chain'_reverse]
      exact h1.imp (fun _ _ hab hc => hab ⟨hc.2, hc.1⟩)
    have h2 := chain'_dropWhile isWsChar _ h1r
    rw [List.chain'_reverse]
    exact h2.imp (fun _ _ hab hc => hab ⟨hc.2, hc.1⟩)

/-! ### Claim C2 -/

/-- C2 counterexample: on `&lt;b&gt;` one clean produces `<b>` (entity
decoding synthesizes a tag), and a second clean strips that tag, so cleaning
is not idempotent on all texts. -/
theorem clean_text_not_idempotent_counterexample :
    clean_text (clean_text ("&lt;b&gt;".data)) ≠ clean_text ("&lt;b&gt;".data) := by
  decide

/-! ### Claim C1 -/

/-- C1 (amended): parsing fails with a `ParseError` — a format error, never an
I/O or usage kind — whenever the trimmed *first* line does not begin with
`WEBVTT`, succeeds past header validation whenever the trimmed first line does
begin with `WEBVTT`, and fails with the distinct "Empty file" reason on empty
input. -/
theorem vttParse_header_validation :
    (∀ (l : List Char) (ls : List (List Char)),
        leadsWith ("WEBVTT".data) (trimWs l) = false →
        vttParse (l :: ls) = .err (.parseError ("Missing WEBVTT header".data)))
    ∧ (∀ (l : List Char) (ls : List (List Char)),
        leadsWith ("WEBVTT".data) (trimWs l) = true →
        vttParse (l :: ls) = .ok ⟨(parse_cues ls).1, (parse_cues ls).2⟩)
    ∧ vttParse [] = .err (.parseError ("Empty file".data)) := by
  refine ⟨?_, ?_, rfl⟩
  · intro l ls h
    simp [vttParse, h]
  · intro l ls h
    simp [vttParse, h]

/-- C1 counterexample: for the input whose lines are `""` then `"WEBVTT"`,
the first non-empty line begins with `WEBVTT` after trimming, yet parsing
fails — header validation looks only at the very first line. -/
theorem vttParse_header_counterexample :
    trimWs ([] : List Char) = [] ∧
    leadsWith ("WEBVTT".data) (trimWs ("WEBVTT".data)) = true ∧
    vttParse [[], "WEBVTT".data] = .err (.parseError ("Missing WEBVTT header".data)) := by
  refine ⟨rfl, by decide, by decide⟩

theorem vttParse_header_validation_witness :
    vttParse ["not a vtt file".data]
      = .err (.parseError ("Missing WEBVTT header".data)) ∧
    vttParse ["WEBVTT - extra".data, "x".data]
      = .ok ⟨(parse_cues ["x".data]).1, (parse_cues ["x".data]).2⟩ ∧
    vttParse [] = .err (.parseError ("Empty file".data)) :=
  ⟨vttParse_header_validation.1 _ _ (by decide),
    vttParse_header_validation.2.1 _ _ (by decide),
    vttParse_header_validation.2.2⟩

/-! ### Claim C3 -/

/-- C3: parsing the four-line document `WEBVTT`, blank,
`00:00:00.000 --> 00:00:02.000`, `<v Alice>Hello world</v>` yields exactly one
cue, and consolidating with policy `none` and placeholder `Unknown` then
formatting yields exactly `**Alice:** Hello world\n\n`. -/
theorem round_trip_simple_input :
    vttParse ["WEBVTT".data, [], "00:00:00.000 --> 00:00:02.000".data,
        "<v Alice>Hello world</v>".data]
      = .ok ⟨[⟨some ("00:00:00.000".data), some ("Alice".data), "Hello world".data⟩], true⟩
    ∧ format_markdown
        (consolidate_cues
          [⟨some ("00:00:00.000".data), some ("Alice".data), "Hello world".data⟩]
          ("Unknown".data) TimestampMode.none)
        TimestampMode.none
      = "**Alice:** Hello world\n\n".data := by
  refine ⟨by decide, by decide⟩

/-! ### Claim C4 -/

theorem consolidateGo_speakers (lbl : List Char) (mode : TimestampMode) :
    ∀ (cues : List Cue) (cur : Option (List Char)) (texts tss : List (List Char))
      (fts : Option (List Char)),
      (consolidateGo lbl mode cur texts tss fts cues).map SpeakerSegment.speaker
        = dedupAdj ((match cur with | Option.none => [] | some sp => [sp])
            ++ effectiveSpeakers lbl cues) := by
  intro cues
  induction cues with
  | nil =>
    intro cur texts tss fts
    cases cur with
    | none => rfl
    | some sp => simp [consolidateGo, closeRun, effectiveSpeakers, dedupAdj]
  | cons cue rest ih =>
    intro cur texts tss fts
    by_cases hb : trimWs cue.text = []
    · simp only [consolidateGo, if_pos hb]
      rw [ih]
      simp [effectiveSpeakers, List.filterMap_cons, hb]
    · simp only [consolidateGo, if_neg hb]
      have heff : effectiveSpeakers lbl (cue :: rest)
          = cue.speaker.getD lbl :: effectiveSpeakers lbl rest := by
        simp [effectiveSpeakers, List.filterMap_cons, hb]
      by_cases hc : cur = some (cue.speaker.getD lbl)
      · rw [if_pos hc, ih, hc, heff]
        simp [dedupAdj]
      · rw [if_neg hc]
        cases cur with
        | none =>
          rw [ih, heff]
          simp
        | some c0 =>
          have hne : c0 ≠ cue.speaker.getD lbl := by
            intro h
            exact hc (by rw [h])
          simp only [List.map_cons, ih, heff]
          simp [closeRun, dedupAdj, hne]

/-- C4 (amended): consolidation emits exactly one segment per maximal run of
consecutive *non-blank* cues sharing the same effective speaker (cues whose
text is empty or whitespace-only are skipped first), in input order; in
particular the emitted speakers are the adjacent-deduplicated effective
speakers, and non-adjacent runs of the same speaker stay separate. -/
theorem consolidate_adjacency_invariant :
    ∀ (cues : List Cue) (lbl : List Char) (mode : TimestampMode),
      (consolidate_cues cues lbl mode).map SpeakerSegment.speaker
          = dedupAdj (effectiveSpeakers lbl cues)
      ∧ (consolidate_cues cues lbl mode).length
          = (dedupAdj (effectiveSpeakers lbl cues)).length := by
  intro cues lbl mode
  have h := consolidateGo_speakers lbl mode cues Option.none [] [] Option.none
  simp only [List.nil_append] at h
  exact ⟨h, by rw [show consolidate_cues cues lbl mode
    = consolidateGo lbl mode Option.none [] [] Option.none cues from rfl, ← h,
    List.length_map]⟩

/-- C4 counterexample: with a whitespace-only middle cue by a different
speaker, the cue sequence has three maximal runs of effective speakers
(A, B, A) but consolidation emits a single segment — blank cues are skipped,
so the claim fails when quantified over every cue sequence. -/
theorem consolidate_adjacency_counterexample :
    (consolidate_cues
        [⟨Option.none, some ("A".data), "hi".data⟩,
         ⟨Option.none, some ("B".data), " ".data⟩,
         ⟨Option.none, some ("A".data), "yo".data⟩]
        ("Unknown".data) TimestampMode.none).length
      ≠ (dedupAdj
          ([⟨Option.none, some ("A".data), "hi".data⟩,
            ⟨Option.none, some ("B".data), " ".data⟩,
            ⟨Option.none, some ("A".data), "yo".data⟩].map
            (fun c : Cue => c.speaker.getD ("Unknown".data)))).length := by
  decide

/-! ### Claim C5 -/

/-- C5: for three consecutive cues by the same speaker with timestamps
`t1 < t2 < t3` (and non-blank texts), policy `first` yields one segment whose
timestamp field is `t1`; policy `each` yields one segment whose timestamp list
is `[t1, t2, t3]` and whose rendered line shows `t1` before the fully merged
text; policy `none` yields one segment with no timestamp and a rendering with
none. -/
theorem consolidate_timestamp_policies :
    ∀ (sp t1 t2 t3 x y z lbl : List Char),
      lexLt t1 t2 = true → lexLt t2 t3 = true →
      trimWs x ≠ [] → trimWs y ≠ [] → trimWs z ≠ [] →
      (consolidate_cues
          [⟨some t1, some sp, x⟩, ⟨some t2, some sp, y⟩, ⟨some t3, some sp, z⟩]
          lbl TimestampMode.first
        = [⟨sp, join_texts [x, y, z], some t1, [t1, t2, t3]⟩])
      ∧ (consolidate_cues
          [⟨some t1, some sp, x⟩, ⟨some t2, some sp, y⟩, ⟨some t3, some sp, z⟩]
          lbl TimestampMode.each
        = [⟨sp, join_texts [x, y, z], Option.none, [t1, t2, t3]⟩]
        ∧ format_markdown
            (consolidate_cues
              [⟨some t1, some sp, x⟩, ⟨some t2, some sp, y⟩, ⟨some t3, some sp, z⟩]
              lbl TimestampMode.each) TimestampMode.each
          = "[".data ++ t1 ++ "] **".data ++ sp ++ ":** ".data
              ++ join_texts [x, y, z] ++ "\n\n".data)
      ∧ (consolidate_cues
          [⟨some t1, some sp, x⟩, ⟨some t2, some sp, y⟩, ⟨some t3, some sp, z⟩]
          lbl TimestampMode.none
        = [⟨sp, join_texts [x, y, z], Option.none, [t1, t2, t3]⟩]
        ∧ format_markdown
            (consolidate_cues
              [⟨some t1, some sp, x⟩, ⟨some t2, some sp, y⟩, ⟨some t3, some sp, z⟩]
              lbl TimestampMode.none) TimestampMode.none
          = "**".data ++ sp ++ ":** ".data ++ join_texts [x, y, z] ++ "\n\n".data) := by
  intro sp t1 t2 t3 x y z lbl _ _ hx hy hz
  have hrun : ∀ mode : TimestampMode,
      consolidate_cues
        [⟨some t1, some sp, x⟩, ⟨some t2, some sp, y⟩, ⟨some t3, some sp, z⟩] lbl mode
      = [closeRun mode sp [x, y, z] [t1, t2, t3] (some t1)] := by
    intro mode
    simp [consolidate_cues, consolidateGo, hx, hy, hz]
  refine ⟨?_, ⟨?_, ?_⟩, ?_, ?_⟩
  · rw [hrun]; simp [closeRun]
  · rw [hrun]; simp [closeRun]
  · rw [hrun]; simp [format_markdown, fmtSegment, closeRun]
  · rw [hrun]; simp [closeRun]
  · rw [hrun]; simp [format_markdown, fmtSegment, closeRun]

theorem consolidate_timestamp_policies_witness :
    consolidate_cues
        [⟨some ("00:00:01.000".data), some ("A".data), "a".data⟩,
         ⟨some ("00:00:02.000".data), some ("A".data), "b".data⟩,
         ⟨some ("00:00:03.000".data), some ("A".data), "c".data⟩]
        ("Unknown".data) TimestampMode.first
      = [⟨"A".data, join_texts ["a".data, "b".data, "c".data],
          some ("00:00:01.000".data),
          ["00:00:01.000".data, "00:00:02.000".data, "00:00:03.000".data]⟩] :=
  (consolidate_timestamp_policies ("A".data) ("00:00:01.000".data)
    ("00:00:02.000".data) ("00:00:03.000".data) ("a".data) ("b".data) ("c".data)
    ("Unknown".data) (by decide) (by decide) (by decide) (by decide) (by decide)).1

/-! ### Sorting lemmas (claim C6) -/

theorem insertCue_perm (a : Cue) : ∀ l : List Cue, (insertCue a l).Perm (a :: l) := by
  intro l
  induction l with
  | nil => exact List.Perm.refl _
  | cons b t ih =>
    by_cases h : cueLe a b = true
    · rw [show insertCue a (b :: t) = a :: b :: t from by simp [insertCue, h]]
    · rw [show insertCue a (b :: t) = b :: insertCue a t from by simp [insertCue, h]]
      exact (ih.cons b).trans (List.Perm.swap a b t)

theorem sortCues_perm : ∀ l : List Cue, (sortCues l).Perm l := by
  intro l
  induction l with
  | nil => exact List.Perm.refl _
  | cons a t ih =>
    have : sortCues (a :: t) = insertCue a (sortCues t) := rfl
    rw [this]
    exact (insertCue_perm a (sortCues t)).trans (ih.cons a)

theorem mem_insertCue (x a : Cue) (l : List Cue) :
    x ∈ insertCue a l ↔ x = a ∨ x ∈ l := by
  rw [(insertCue_perm a l).mem_iff]
  simp

theorem lexLt_irrefl : ∀ x : List Char, lexLt x x = false := by
  intro x
  induction x with
  | nil => rfl
  | cons a t ih => simp [lexLt, ih]

theorem lexLt_asymm : ∀ x y : List Char, lexLt x y = true → lexLt y x = false := by
  intro x
  induction x with
  | nil =>
    intro y h
    cases y with
    | nil => rfl
    | cons b bs => rfl
  | cons a as ih =>
    intro y h
    cases y with
    | nil => simp [lexLt] at h
    | cons b bs =>
      simp only [lexLt] at h ⊢
      by_cases h1 : a.toNat < b.toNat
      · rw [if_neg (by omega), if_pos h1]
      · rw [if_neg h1] at h
        by_cases h2 : b.toNat < a.toNat
        · rw [if_pos h2] at h
          exact absurd h (by simp)
        · rw [if_neg h2] at h
          rw [if_neg h1, if_neg h2]
          exact ih bs h

theorem lexLt_nlt_trans : ∀ x y z : List Char,
    lexLt x y = false → lexLt y z = false → lexLt x z = false := by
  intro x
  induction x with
  | nil =>
    intro y z h1 h2
    cases y with
    | nil => exact h2
    | cons b bs => simp [lexLt] at h1
  | cons a as ih =>
    intro y z h1 h2
    cases z with
    | nil => rfl
    | cons c cs =>
      cases y with
      | nil => simp [lexLt] at h2
      | cons b bs =>
        simp only [lexLt] at h1 h2 ⊢
        by_cases hab : a.toNat < b.toNat
        · rw [if_pos hab] at h1
          exact absurd h1 (by simp)
        · rw [if_neg hab] at h1
          by_cases hbc : b.toNat < c.toNat
          · rw [if_pos hbc] at h2
            exact absurd h2 (by simp)
          · rw [if_neg hbc] at h2
            by_cases hac : a.toNat < c.toNat
            · by_cases hba : b.toNat < a.toNat
              · omega
              · by_cases hcb : c.toNat < b.toNat
                · omega
                · omega
            · rw [if_neg hac]
              by_cases hca : c.toNat < a.toNat
              · rw [if_pos hca]
              · rw [if_neg hca]
                have hba : ¬ b.toNat < a.toNat := by omega
                have hcb : ¬ c.toNat < b.toNat := by omega
                rw [if_neg hba] at h1
                rw [if_neg hcb] at h2
                exact ih bs cs h1 h2

theorem cueLt_asymm : ∀ a b : Cue, cueLt a b = true → cueLt b a = false := by
  rintro ⟨ta, sa, xa⟩ ⟨tb, sb, xb⟩ h
  cases ta with
  | none =>
    cases tb with
    | none => exact Bool.noConfusion h
    | some y => exact Bool.noConfusion h
  | some x =>
    cases tb with
    | none => rfl
    | some y => exact lexLt_asymm x y h

theorem cueLt_nlt_trans : ∀ a b c : Cue,
    cueLt b a = false → cueLt c b = false → cueLt c a = false := by
  rintro ⟨ta, sa, xa⟩ ⟨tb, sb, xb⟩ ⟨tc, sc, xc⟩ h1 h2
  cases ta with
  | none =>
    cases tc with
    | none => rfl
    | some z =>
      cases tb with
      | none => exact Bool.noConfusion h2
      | some y => exact Bool.noConfusion h1
  | some x =>
    cases tc with
    | none => rfl
    | some z =>
      cases tb with
      | none => exact Bool.noConfusion h2
      | some y => exact lexLt_nlt_trans z y x h2 h1

theorem cueLe_total (a b : Cue) : cueLe a b = true ∨ cueLe b a = true := by
  cases hlt : cueLt b a with
  | false =>
    left
    unfold cueLe
    rw [hlt]
    rfl
  | true =>
    right
    unfold cueLe
    rw [cueLt_asymm b a hlt]
    rfl

theorem cueLe_trans (a b c : Cue) (h1 : cueLe a b = true) (h2 : cueLe b c = true) :
    cueLe a c = true := by
  unfold cueLe at h1 h2 ⊢
  rw [Bool.not_eq_true'] at h1 h2 ⊢
  exact cueLt_nlt_trans a b c h1 h2

theorem pairwise_insertCue (a : Cue) :
    ∀ l : List Cue, List.Pairwise (fun x y => cueLe x y = true) l →
      List.Pairwise (fun x y => cueLe x y = true) (insertCue a l) := by
  intro l
  induction l with
  | nil => intro _; simp [insertCue]
  | cons b t ih =>
    intro h
    by_cases hab : cueLe a b = true
    · rw [show insertCue a (b :: t) = a :: b :: t from by simp [insertCue, hab]]
      refine List.Pairwise.cons ?_ h
      intro y hy
      rcases List.mem_cons.mp hy with rfl | hyt
      · exact hab
      · exact cueLe_trans a b y hab ((List.pairwise_cons.mp h).1 y hyt)
    · rw [show insertCue a (b :: t) = b :: insertCue a t from by simp [insertCue, hab]]
      have hba : cueLe b a = true := (cueLe_total a b).resolve_left hab
      refine List.Pairwise.cons ?_ (ih (List.pairwise_cons.mp h).2)
      intro y hy
      rcases (mem_insertCue y a t).mp hy with rfl | hyt
      · exact hba
      · exact (List.pairwise_cons.mp h).1 y hyt

theorem sortCues_pairwise : ∀ l : List Cue,
    List.Pairwise (fun x y => cueLe x y = true) (sortCues l) := by
  intro l
  induction l with
  | nil => simp [sortCues]
  | cons a t ih => exact pairwise_insertCue a (sortCues t) ih

/-- A strictly smaller cue has a different timestamp. -/
theorem cueLt_ts_ne (b a : Cue) (h : cueLt b a = true) : b.timestamp ≠ a.timestamp := by
  rcases a with ⟨ta, sa, xa⟩
  rcases b with ⟨tb, sb, xb⟩
  cases ta with
  | none =>
    cases tb with
    | none => exact Bool.noConfusion h
    | some y => simp
  | some x =>
    cases tb with
    | none => simp
    | some y =>
      intro he
      simp only [Option.some.injEq] at he
      have hyx : lexLt y x = true := h
      rw [he, lexLt_irrefl x] at hyx
      exact Bool.noConfusion hyx

theorem filter_insertCue (k : Option (List Char)) (a : Cue) :
    ∀ l : List Cue,
      (insertCue a l).filter (fun c => c.timestamp == k)
        = if a.timestamp = k then a :: l.filter (fun c => c.timestamp == k)
          else l.filter (fun c => c.timestamp == k) := by
  intro l
  induction l with
  | nil =>
    by_cases hk : a.timestamp = k
    · simp [insertCue, List.filter_cons, beq_iff_eq, hk]
    · simp [insertCue, List.filter_cons, beq_iff_eq, hk]
  | cons b t ih =>
    by_cases hab : cueLe a b = true
    · rw [show insertCue a (b :: t) = a :: b :: t from by simp [insertCue, hab]]
      by_cases hk : a.timestamp = k
      · simp [List.filter_cons, beq_iff_eq, hk]
      · simp [List.filter_cons, beq_iff_eq, hk]
    · rw [show insertCue a (b :: t) = b :: insertCue a t from by simp [insertCue, hab]]
      have hba : cueLt b a = true := by
        have := hab
        unfold cueLe at this
        simpa using this
      by_cases hk : a.timestamp = k
      · have hbk : (b.timestamp == k) = false := by
          rw [← hk]
          simpa using cueLt_ts_ne b a hba
        rw [List.filter_cons, List.filter_cons, hbk]
        simp only [ih, if_pos hk]
        simp
      · rw [List.filter_cons, List.filter_cons]
        cases hbk : (b.timestamp == k) with
        | false => simp only [ih, if_neg hk]
        | true => simp only [ih, if_neg hk]

theorem filter_sortCues (k : Option (List Char)) : ∀ l : List Cue,
    (sortCues l).filter (fun c => c.timestamp == k)
      = l.filter (fun c => c.timestamp == k) := by
  intro l
  induction l with
  | nil => rfl
  | cons a t ih =>
    have hstep : sortCues (a :: t) = insertCue a (sortCues t) := rfl
    rw [hstep, filter_insertCue, List.filter_cons]
    by_cases hk : a.timestamp = k
    · rw [if_pos hk, ih, show (a.timestamp == k) = true from by simpa using hk]
      simp
    · rw [if_neg hk, ih, show (a.timestamp == k) = false from by simpa using hk]
      simp

/-! ### Claim C6 -/

/-- C6: after scanning, the parser's emitted cue sequence is a stable
ascending sort of the scanned cues by timestamp string: it is a permutation of
the scan output, pairwise ordered by the comparator (lexicographic on
timestamps, timestamp-less cues after all timestamped ones), the subsequence
of cues carrying any fixed timestamp value — including the timestamp-less
group — is preserved in input order, and two valid cues appearing in source
order `t2, t1` are emitted in order `t1, t2`. -/
theorem parse_cues_stable_sort :
    (∀ lines : List (List Char),
        ((parse_cues lines).1).Perm (scanGo Option.none [] false lines))
    ∧ (∀ lines : List (List Char),
        List.Pairwise (fun a b => cueLe a b = true) (parse_cues lines).1)
    ∧ (∀ (lines : List (List Char)) (k : Option (List Char)),
        ((parse_cues lines).1).filter (fun c => c.timestamp == k)
          = (scanGo Option.none [] false lines).filter (fun c => c.timestamp == k))
    ∧ (parse_cues ["00:00:05.000 --> 00:00:06.000".data, "Hello B".data, [],
          "00:00:01.000 --> 00:00:02.000".data, "Hello A".data]).1
        = [⟨some ("00:00:01.000".data), Option.none, "Hello A".data⟩,
           ⟨some ("00:00:05.000".data), Option.none, "Hello B".data⟩] := by
  refine ⟨?_, ?_, ?_, by decide⟩
  · intro lines
    exact sortCues_perm (scanGo Option.none [] false lines)
  · intro lines
    exact sortCues_pairwise (scanGo Option.none [] false lines)
  · intro lines k
    exact filter_sortCues k (scanGo Option.none [] false lines)

/-! ### Claim C9 -/

theorem save_cue_timestamp (ts : Option (List Char)) (txt : List (List Char)) :
    ∀ c ∈ save_cue ts txt, c.timestamp = ts := by
  intro c hc
  unfold save_cue at hc
  by_cases h : trimWs (clean_text (extract_speaker_and_text (List.intercalate ['\n'] txt)).2) = []
  · rw [if_pos h] at hc
    simp at hc
  · rw [if_neg h] at hc
    rcases List.mem_singleton.mp hc with rfl
    rfl

theorem scanGo_timestamp_isSome :
    ∀ (lines : List (List Char)) (ts : Option (List Char)) (txt : List (List Char))
      (meta : Bool), (txt ≠ [] → ts ≠ Option.none) →
      ∀ c ∈ scanGo ts txt meta lines, c.timestamp ≠ Option.none := by
  intro lines
  induction lines with
  | nil =>
    intro ts txt meta hinv c hc
    by_cases htxt : txt ≠ []
    · rw [show scanGo ts txt meta [] = save_cue ts txt from by simp [scanGo, htxt]] at hc
      rw [save_cue_timestamp ts txt c hc]
      exact hinv htxt
    · rw [show scanGo ts txt meta [] = [] from by simp [scanGo, htxt]] at hc
      simp at hc
  | cons l rest ih =>
    intro ts txt meta hinv c hc
    by_cases hm : isMetaMarker l = true
    · rw [show scanGo ts txt meta (l :: rest) = scanGo ts txt true rest from by
        simp [scanGo, hm]] at hc
      exact ih ts txt true hinv c hc
    · cases htl : parseTimingLine l with
      | some t =>
        rw [show scanGo ts txt meta (l :: rest)
            = (if txt ≠ [] then save_cue ts txt else [])
                ++ scanGo (some t) [] false rest from by simp [scanGo, hm, htl]] at hc
        rcases List.mem_append.mp hc with h | h
        · by_cases htxt : txt ≠ []
          · rw [if_pos htxt] at h
            rw [save_cue_timestamp ts txt c h]
            exact hinv htxt
          · rw [if_neg htxt] at h
            simp at h
        · exact ih (some t) [] false (fun hfalse => absurd rfl hfalse) c h
      | none =>
        by_cases hblank : trimWs l = []
        · by_cases htxt : txt ≠ []
          · rw [show scanGo ts txt meta (l :: rest)
                = save_cue ts txt ++ scanGo Option.none [] false rest from by
              simp [scanGo, hm, htl, hblank, htxt]] at hc
            rcases List.mem_append.mp hc with h | h
            · rw [save_cue_timestamp ts txt c h]
              exact hinv htxt
            · exact ih Option.none [] false (fun hfalse => absurd rfl hfalse) c h
          · rw [show scanGo ts txt meta (l :: rest) = scanGo ts txt false rest from by
              simp [scanGo, hm, htl, hblank, htxt]] at hc
            exact ih ts txt false hinv c hc
        · by_cases hmeta : meta = true
          · rw [show scanGo ts txt meta (l :: rest) = scanGo ts txt meta rest from by
              simp [scanGo, hm, htl, hblank, hmeta]] at hc
            exact ih ts txt meta hinv c hc
          · by_cases hid : ts = Option.none ∧ txt ≠ []
            · rw [show scanGo ts txt meta (l :: rest) = scanGo ts txt meta rest from by
                simp [scanGo, hm, htl, hblank, hmeta, hid]] at hc
              exact ih ts txt meta hinv c hc
            · by_cases hsome : ts.isSome = true
              · rw [show scanGo ts txt meta (l :: rest)
                    = scanGo ts (txt ++ [l]) meta rest from by
                  simp [scanGo, hm, htl, hblank, hmeta, hid, hsome]] at hc
                refine ih ts (txt ++ [l]) meta (fun _ => ?_) c hc
                intro hn
                rw [hn] at hsome
                exact Bool.noConfusion hsome
              · rw [show scanGo ts txt meta (l :: rest) = scanGo ts txt meta rest from by
                  simp [scanGo, hm, htl, hblank, hmeta, hid, hsome]] at hc
                exact ih ts txt meta hinv c hc

/-- C9: every cue emitted by the parser carries a timestamp — text is only
accumulated while a timing line is open, and each flush site passes the open
timestamp, so a cue with `timestamp = None` never occurs in parser output. -/
theorem parse_cues_timestamp_never_none :
    ∀ (lines : List (List Char)) (c : Cue),
      c ∈ (parse_cues lines).1 → c.timestamp ≠ Option.none := by
  intro lines c hc
  have hmem : c ∈ scanGo Option.none [] false lines :=
    (sortCues_perm (scanGo Option.none [] false lines)).mem_iff.mp hc
  exact scanGo_timestamp_isSome lines Option.none [] false
    (fun hfalse => absurd rfl hfalse) c hmem

theorem parse_cues_timestamp_never_none_witness :
    (⟨some ("00:00:01.000".data), some ("Alice".data), "Hi.".data⟩ : Cue)
        ∈ (parse_cues ["00:00:01.000 --> 00:00:02.000".data, "<v Alice>Hi.</v>".data]).1 ∧
    (⟨some ("00:00:01.000".data), some ("Alice".data), "Hi.".data⟩ : Cue).timestamp
        ≠ Option.none :=
  ⟨by decide,
    parse_cues_timestamp_never_none
      ["00:00:01.000 --> 00:00:02.000".data, "<v Alice>Hi.</v>".data]
      ⟨some ("00:00:01.000".data), some ("Alice".data), "Hi.".data⟩ (by decide)⟩

/-! ### Voice-tag extraction lemmas (claim C7) -/

theorem splitOnSub_vclose (content tail : List Char) (h : ∀ c ∈ content, c ≠ '<') :
    splitOnSub ("</v>".data) ((content ++ "</v>".data) ++ tail) = some (content, tail) := by
  have h2 := splitOnSub_append_self '<' ("/v>".data) content tail h
  rw [show ('<' :: ("/v>".data)) = "</v>".data from rfl] at h2
  exact h2

theorem splitOnSub_vclose_none (s : List Char) (h : ∀ c ∈ s, c ≠ '<') :
    splitOnSub ("</v>".data) s = none := by
  have h2 := splitOnSub_none '<' ("/v>".data) s h
  rw [show ('<' :: ("/v>".data)) = "</v>".data from rfl] at h2
  exact h2

theorem tryClosedNamedAt_none_head (c : Char) (r : List Char) (h : c ≠ '<') :
    tryClosedNamedAt (c :: r) = none := by
  cases r with
  | nil => rfl
  | cons d r' =>
    simp only [tryClosedNamedAt]
    rw [if_neg (fun hcon => h hcon.1)]

theorem tryEmptyAt_none_head (c : Char) (r : List Char) (h : c ≠ '<') :
    tryEmptyAt (c :: r) = none := by
  cases r with
  | nil => rfl
  | cons d r' =>
    cases r' with
    | nil => rfl
    | cons e r'' =>
      simp only [tryEmptyAt]
      rw [if_neg (fun hcon => h hcon.1)]

theorem tryOpenNamedAt_none_head (c : Char) (r : List Char) (h : c ≠ '<') :
    tryOpenNamedAt (c :: r) = none := by
  cases r with
  | nil => rfl
  | cons d r' =>
    simp only [tryOpenNamedAt]
    rw [if_neg (fun hcon => h hcon.1)]

theorem searchPos_none_of {α : Type} (f : List Char → Option α)
    (hf : ∀ (c : Char) (r : List Char), c ≠ '<' → f (c :: r) = none) :
    ∀ l : List Char, '<' ∉ l → searchPos f l = none := by
  intro l
  induction l with
  | nil => intro _; rfl
  | cons c r ih =>
    intro h
    have hc : c ≠ '<' := fun he => h (he ▸ List.mem_cons_self c r)
    simp only [searchPos, hf c r hc]
    exact ih (fun hm => h (List.mem_cons_of_mem c hm))

/-- A nonempty name equal to its own trim starts with a non-whitespace
character. -/
theorem token_head_not_ws (nm : List Char) (hself : trimWs nm = nm) (hne : nm ≠ []) :
    ∃ n0 nr, nm = n0 :: nr ∧ isWsChar n0 = false := by
  cases nm with
  | nil => exact absurd rfl hne
  | cons n0 nr =>
    refine ⟨n0, nr, rfl, ?_⟩
    cases hws : isWsChar n0 with
    | false => rfl
    | true =>
      exfalso
      have h1 : (trimWs (n0 :: nr)).length ≤ nr.length := by
        unfold trimWs
        rw [List.dropWhile_cons_of_pos hws]
        calc ((nr.dropWhile isWsChar).reverse.dropWhile isWsChar).reverse.length
            = ((nr.dropWhile isWsChar).reverse.dropWhile isWsChar).length :=
              List.length_reverse _
          _ ≤ (nr.dropWhile isWsChar).reverse.length :=
              (List.dropWhile_sublist isWsChar).length_le
          _ = (nr.dropWhile isWsChar).length := List.length_reverse _
          _ ≤ nr.length := (List.dropWhile_sublist isWsChar).length_le
      rw [hself] at h1
      simp at h1

theorem name_segment_takeWhile (nm R : List Char) (hgt : ∀ a ∈ nm, a ≠ '>') :
    (nm ++ '>' :: R).takeWhile (fun c => c != '>') = nm := by
  rw [List.takeWhile_append_of_pos (by intro a ha; simpa using hgt a ha)]
  rw [List.takeWhile_cons_of_neg (by simp)]
  simp

theorem name_segment_dropWhile (nm R : List Char) (hgt : ∀ a ∈ nm, a ≠ '>') :
    (nm ++ '>' :: R).dropWhile (fun c => c != '>') = '>' :: R := by
  rw [List.dropWhile_append_of_pos (by intro a ha; simpa using hgt a ha)]
  exact List.dropWhile_cons_of_neg (by simp)

theorem tryClosedNamedAt_eval (nm R : List Char) (n0 : Char) (nr : List Char)
    (hnm : nm = n0 :: nr) (h0 : isWsChar n0 = false) (hgt : ∀ a ∈ nm, a ≠ '>') :
    tryClosedNamedAt ('<' :: 'v' :: ' ' :: (nm ++ '>' :: R))
      = (match splitOnSub ("</v>".data) R with
         | some (content, _) => some (nm, content)
         | none => none) := by
  have hws : (nm ++ '>' :: R).dropWhile isWsChar = nm ++ '>' :: R := by
    rw [hnm]
    exact List.dropWhile_cons_of_neg (by simp [h0])
  simp only [tryClosedNamedAt]
  rw [if_pos ⟨trivial, trivial, rfl⟩]
  rw [List.dropWhile_cons_of_pos (show isWsChar ' ' = true from rfl), hws,
    name_segment_takeWhile nm R hgt, name_segment_dropWhile nm R hgt]

theorem tryOpenNamedAt_eval (nm R : List Char) (n0 : Char) (nr : List Char)
    (hnm : nm = n0 :: nr) (h0 : isWsChar n0 = false) (hgt : ∀ a ∈ nm, a ≠ '>') :
    tryOpenNamedAt ('<' :: 'v' :: ' ' :: (nm ++ '>' :: R)) = some (nm, R) := by
  have hws : (nm ++ '>' :: R).dropWhile isWsChar = nm ++ '>' :: R := by
    rw [hnm]
    exact List.dropWhile_cons_of_neg (by simp [h0])
  simp only [tryOpenNamedAt]
  rw [if_pos ⟨trivial, trivial, rfl⟩]
  rw [List.dropWhile_cons_of_pos (show isWsChar ' ' = true from rfl), hws,
    name_segment_takeWhile nm R hgt, name_segment_dropWhile nm R hgt]

theorem searchClosed_tail_none (content : List Char) (h : ∀ c ∈ content, c ≠ '<') :
    searchPos tryClosedNamedAt (content ++ "</v>".data) = none := by
  induction content with
  | nil => decide
  | cons c cs ih =>
    have hc : c ≠ '<' := h c (by simp)
    simp only [List.cons_append, searchPos, tryClosedNamedAt_none_head c _ hc]
    exact ih (fun x hx => h x (by simp [hx]))

/-- Tier (a) of `extract_speaker_and_text` on a buffer of the exact closed-tag
shape with a plain-text body. -/
theorem extract_closed_named (nm content : List Char)
    (hne : nm ≠ []) (hself : trimWs nm = nm) (hgt : ∀ a ∈ nm, a ≠ '>')
    (hc : ∀ c ∈ content, c ≠ '<') :
    extract_speaker_and_text ('<' :: 'v' :: ' ' :: (nm ++ '>' :: (content ++ "</v>".data)))
      = (some nm, content) := by
  obtain ⟨n0, nr, hnm, h0⟩ := token_head_not_ws nm hself hne
  have heval := tryClosedNamedAt_eval nm (content ++ "</v>".data) n0 nr hnm h0 hgt
  rw [show content ++ "</v>".data = (content ++ "</v>".data) ++ [] from by simp,
    splitOnSub_vclose content [] hc] at heval
  have hsearch : searchPos tryClosedNamedAt
      ('<' :: 'v' :: ' ' :: (nm ++ '>' :: ((content ++ "</v>".data) ++ [])))
      = some (nm, content) := by
    simp only [searchPos, heval]
  simp only [List.append_nil] at hsearch
  simp only [extract_speaker_and_text, hsearch, hself]
  rw [if_neg hne]

/-- Tier (b): closed tag with empty name yields no speaker and the body. -/
theorem extract_closed_empty (content : List Char) (hc : ∀ c ∈ content, c ≠ '<') :
    extract_speaker_and_text ('<' :: 'v' :: '>' :: (content ++ "</v>".data))
      = (none, content) := by
  have h1 : tryClosedNamedAt ('<' :: 'v' :: '>' :: (content ++ "</v>".data)) = none := by
    simp only [tryClosedNamedAt]
    have hcond : ¬(True ∧ True ∧ headIsWs ('>' :: (content ++ ['<', '/', 'v', '>'])) = true) := by
      rintro ⟨-, -, h3⟩
      rw [show headIsWs ('>' :: (content ++ ['<', '/', 'v', '>'])) = false from rfl] at h3
      exact Bool.noConfusion h3
    rw [if_neg hcond]
  have hsc : searchPos tryClosedNamedAt
      ('<' :: 'v' :: '>' :: (content ++ "</v>".data)) = none := by
    simp only [searchPos, h1, tryClosedNamedAt_none_head 'v' _ (by decide),
      tryClosedNamedAt_none_head '>' _ (by decide)]
    exact searchClosed_tail_none content hc
  have h2 : tryEmptyAt ('<' :: 'v' :: '>' :: (content ++ "</v>".data)) = some content := by
    simp only [tryEmptyAt]
    rw [if_pos (by refine ⟨?_, ?_, ?_⟩ <;> first | rfl | trivial)]
    rw [show content ++ "</v>".data = (content ++ "</v>".data) ++ [] from by simp,
      splitOnSub_vclose content [] hc]
  have hse : searchPos tryEmptyAt
      ('<' :: 'v' :: '>' :: (content ++ "</v>".data)) = some content := by
    simp only [searchPos, h2]
  simp only [extract_speaker_and_text, hsc, hse]

/-- Tier (c): an unterminated named tag captures the name and all remaining
text. -/
theorem extract_open_named (nm content : List Char)
    (hne : nm ≠ []) (hself : trimWs nm = nm) (hgt : ∀ a ∈ nm, a ≠ '>')
    (hlt1 : ∀ a ∈ nm, a ≠ '<') (hc : ∀ c ∈ content, c ≠ '<') :
    extract_speaker_and_text ('<' :: 'v' :: ' ' :: (nm ++ '>' :: content))
      = (some nm, content) := by
  obtain ⟨n0, nr, hnm, h0⟩ := token_head_not_ws nm hself hne
  have hnolt : '<' ∉ ('v' :: ' ' :: (nm ++ '>' :: content)) := by
    intro hmem
    rcases List.mem_cons.mp hmem with h | hmem
    · exact absurd h.symm (by decide)
    rcases List.mem_cons.mp hmem with h | hmem
    · exact absurd h.symm (by decide)
    rcases List.mem_append.mp hmem with h | hmem
    · exact hlt1 '<' h rfl
    rcases List.mem_cons.mp hmem with h | hmem
    · exact absurd h.symm (by decide)
    · exact hc '<' hmem rfl
  have h1 : tryClosedNamedAt ('<' :: 'v' :: ' ' :: (nm ++ '>' :: content)) = none := by
    rw [tryClosedNamedAt_eval nm content n0 nr hnm h0 hgt,
      splitOnSub_vclose_none content hc]
  have hsc : searchPos tryClosedNamedAt
      ('<' :: 'v' :: ' ' :: (nm ++ '>' :: content)) = none := by
    simp only [searchPos, h1]
    exact searchPos_none_of tryClosedNamedAt tryClosedNamedAt_none_head _ hnolt
  have h2 : tryEmptyAt ('<' :: 'v' :: ' ' :: (nm ++ '>' :: content)) = none := by
    simp only [tryEmptyAt]
    have hcond : ¬(True ∧ True ∧ ' ' = '>') := by
      rintro ⟨-, -, h3⟩
      exact absurd h3 (by decide)
    rw [if_neg hcond]
  have hse : searchPos tryEmptyAt
      ('<' :: 'v' :: ' ' :: (nm ++ '>' :: content)) = none := by
    simp only [searchPos, h2]
    exact searchPos_none_of tryEmptyAt tryEmptyAt_none_head _ hnolt
  have h3 : tryOpenNamedAt ('<' :: 'v' :: ' ' :: (nm ++ '>' :: content))
      = some (nm, content) := tryOpenNamedAt_eval nm content n0 nr hnm h0 hgt
  have hso : searchPos tryOpenNamedAt
      ('<' :: 'v' :: ' ' :: (nm ++ '>' :: content)) = some (nm, content) := by
    simp only [searchPos, h3]
  simp only [extract_speaker_and_text, hsc, hse, hso, hself]
  rw [if_neg hne]

/-- No voice tag at all: the entire buffer is the content, no speaker. -/
theorem extract_no_tag (t : List Char) (h : '<' ∉ t) :
    extract_speaker_and_text t = (none, t) := by
  simp only [extract_speaker_and_text,
    searchPos_none_of tryClosedNamedAt tryClosedNamedAt_none_head t h,
    searchPos_none_of tryEmptyAt tryEmptyAt_none_head t h,
    searchPos_none_of tryOpenNamedAt tryOpenNamedAt_none_head t h]

/-! ### Claim C7 -/

/-- C7: the three-tier voice-tag match, in priority order, on buffers of each
tier's shape (names are `>`-free, `<`-free trimmed tokens; bodies are
`<`-free and may span embedded newlines): (a) a closed `<v NAME>body</v>`
yields the name and the body; (b) a closed `<v>body</v>` yields no speaker and
the body; (c) an unterminated `<v NAME>body` yields the name and all remaining
text; and with no `<` in the buffer at all, the entire buffer is the content
with no speaker. -/
theorem extract_speaker_three_tiers :
    (∀ nm content : List Char, nm ≠ [] → trimWs nm = nm → '>' ∉ nm → '<' ∉ nm →
      '<' ∉ content →
      extract_speaker_and_text
          ("<v ".data ++ nm ++ ">".data ++ content ++ "</v>".data)
        = (some nm, content))
    ∧ (∀ content : List Char, '<' ∉ content →
      extract_speaker_and_text ("<v>".data ++ content ++ "</v>".data)
        = (none, content))
    ∧ (∀ nm content : List Char, nm ≠ [] → trimWs nm = nm → '>' ∉ nm → '<' ∉ nm →
      '<' ∉ content →
      extract_speaker_and_text ("<v ".data ++ nm ++ ">".data ++ content)
        = (some nm, content))
    ∧ (∀ t : List Char, '<' ∉ t → extract_speaker_and_text t = (none, t)) := by
  refine ⟨?_, ?_, ?_, extract_no_tag⟩
  · intro nm content hne hself hgt hlt hc
    have hbuf : "<v ".data ++ nm ++ ">".data ++ content ++ "</v>".data
        = '<' :: 'v' :: ' ' :: (nm ++ '>' :: (content ++ "</v>".data)) := by
      rw [show "<v ".data = ['<', 'v', ' '] from rfl, show ">".data = ['>'] from rfl]
      simp
    rw [hbuf]
    exact extract_closed_named nm content hne hself
      (fun a ha he => hgt (he ▸ ha)) (fun c hcc he => hc (he ▸ hcc))
  · intro content hc
    have hbuf : "<v>".data ++ content ++ "</v>".data
        = '<' :: 'v' :: '>' :: (content ++ "</v>".data) := by
      rw [show "<v>".data = ['<', 'v', '>'] from rfl]
      simp
    rw [hbuf]
    exact extract_closed_empty content (fun c hcc he => hc (he ▸ hcc))
  · intro nm content hne hself hgt hlt hc
    have hbuf : "<v ".data ++ nm ++ ">".data ++ content
        = '<' :: 'v' :: ' ' :: (nm ++ '>' :: content) := by
      rw [show "<v ".data = ['<', 'v', ' '] from rfl, show ">".data = ['>'] from rfl]
      simp
    rw [hbuf]
    exact extract_open_named nm content hne hself
      (fun a ha he => hgt (he ▸ ha)) (fun a ha he => hlt (he ▸ ha))
      (fun c hcc he => hc (he ▸ hcc))

theorem extract_speaker_three_tiers_witness :
    extract_speaker_and_text
        ("<v ".data ++ "Alice".data ++ ">".data ++ "Hello\nworld".data ++ "</v>".data)
      = (some ("Alice".data), "Hello\nworld".data) ∧
    extract_speaker_and_text ("<v>".data ++ "Hi there".data ++ "</v>".data)
      = (none, "Hi there".data) ∧
    extract_speaker_and_text ("<v ".data ++ "Jane".data ++ ">".data ++ "rest of\ntext".data)
      = (some ("Jane".data), "rest of\ntext".data) ∧
    extract_speaker_and_text ("plain text".data) = (none, "plain text".data) :=
  ⟨extract_speaker_three_tiers.1 ("Alice".data) ("Hello\nworld".data)
      (by decide) (by decide) (by decide) (by decide) (by decide),
    extract_speaker_three_tiers.2.1 ("Hi there".data) (by decide),
    extract_speaker_three_tiers.2.2.1 ("Jane".data) ("rest of\ntext".data)
      (by decide) (by decide) (by decide) (by decide) (by decide),
    extract_speaker_three_tiers.2.2.2 ("plain text".data) (by decide)⟩

/-! ### Claim C8 -/

/-- C8: speaker-name sanitization strips `@`, NFC-normalizes, trims, yields no
speaker for whitespace-only or `@`-only names, and otherwise escapes exactly
the Markdown-significant characters with a preceding backslash while leaving
all other characters unchanged; in particular `John*Doe` becomes
`John\*Doe`. -/
theorem sanitize_speaker_name_spec :
    sanitize_speaker_name ("John*Doe".data) = some ("John\\*Doe".data)
    ∧ (∀ s : List Char, (∀ c ∈ s, isWsChar c = true) → sanitize_speaker_name s = none)
    ∧ (∀ s : List Char, (∀ c ∈ s, c = '@') → sanitize_speaker_name s = none)
    ∧ (∀ s : List Char, (∀ c ∈ s, isMdSpecial c = false) → escape_markdown s = s)
    ∧ (∀ (c : Char) (s : List Char), isMdSpecial c = true →
        escape_markdown (c :: s) = '\\' :: c :: escape_markdown s) := by
  refine ⟨by decide, ?_, ?_, ?_, ?_⟩
  · intro s h
    have hfil : ∀ c ∈ s.filter (fun c => c != '@'), isWsChar c = true :=
      fun c hc => h c (List.mem_of_mem_filter hc)
    have htrim : trimWs (nfc (s.filter (fun c => c != '@'))) = [] := by
      unfold nfc trimWs
      rw [List.dropWhile_eq_nil_iff.mpr hfil]
      rfl
    simp only [sanitize_speaker_name, htrim]
    rfl
  · intro s h
    have hfil : s.filter (fun c => c != '@') = [] := by
      rw [List.filter_eq_nil_iff]
      intro a ha
      simp [h a ha]
    simp only [sanitize_speaker_name, hfil]
    rfl
  · intro s h
    induction s with
    | nil => rfl
    | cons c rest ih =>
      simp only [escape_markdown]
      rw [if_neg (by simp [h c (by simp)])]
      rw [ih (fun x hx => h x (by simp [hx]))]
  · intro c s h
    simp only [escape_markdown]
    rw [if_pos h]

theorem sanitize_speaker_name_spec_witness :
    sanitize_speaker_name ("  \t ".data) = none ∧
    sanitize_speaker_name ("@@@".data) = none ∧
    escape_markdown ("plain text".data) = "plain text".data ∧
    escape_markdown ('*' :: "x".data) = '\\' :: '*' :: escape_markdown ("x".data) :=
  ⟨sanitize_speaker_name_spec.2.1 ("  \t ".data) (by decide),
    sanitize_speaker_name_spec.2.2.1 ("@@@".data) (by decide),
    sanitize_speaker_name_spec.2.2.2.1 ("plain text".data) (by decide),
    sanitize_speaker_name_spec.2.2.2.2 '*' ("x".data) (by decide)⟩

/-! ### Claim C10 -/

theorem scanGo_meta_skip :
    ∀ (junk : List (List Char)) (ts : Option (List Char)) (txt : List (List Char))
      (tail : List (List Char)),
      (∀ j ∈ junk, trimWs j ≠ [] ∧ parseTimingLine j = none) →
      scanGo ts txt true (junk ++ tail) = scanGo ts txt true tail := by
  intro junk
  induction junk with
  | nil => intro ts txt tail _; rfl
  | cons j js ih =>
    intro ts txt tail h
    have hj := h j (by simp)
    by_cases hm : isMetaMarker j = true
    · rw [show scanGo ts txt true ((j :: js) ++ tail) = scanGo ts txt true (js ++ tail) from by
        simp [scanGo, hm]]
      exact ih ts txt tail (fun x hx => h x (by simp [hx]))
    · rw [show scanGo ts txt true ((j :: js) ++ tail) = scanGo ts txt true (js ++ tail) from by
        simp [scanGo, hm, hj.2, hj.1]]
      exact ih ts txt tail (fun x hx => h x (by simp [hx]))

theorem dropWhile_append_singleton_ne (p : Char → Bool) (c : Char) (hc : p c = false) :
    ∀ xs : List Char, (xs ++ [c]).dropWhile p ≠ [] := by
  intro xs
  induction xs with
  | nil =>
    rw [List.nil_append, List.dropWhile_cons_of_neg (by simp [hc])]
    simp
  | cons x xt ih =>
    by_cases hx : p x = true
    · rw [List.cons_append, List.dropWhile_cons_of_pos hx]
      exact ih
    · rw [List.cons_append, List.dropWhile_cons_of_neg hx]
      simp

theorem trimWs_nil_dropWhile (l : List Char) (h : trimWs l = []) :
    l.dropWhile isWsChar = [] := by
  cases hd : l.dropWhile isWsChar with
  | nil => rfl
  | cons c u =>
    exfalso
    have hcw : isWsChar c = false := head_dropWhile_false isWsChar l c u hd
    have hne : ((c :: u).reverse).dropWhile isWsChar ≠ [] := by
      rw [show (c :: u).reverse = u.reverse ++ [c] from by simp]
      exact dropWhile_append_singleton_ne isWsChar c hcw u.reverse
    have : trimWs l ≠ [] := by
      unfold trimWs
      rw [hd]
      simpa using hne
    exact this h

theorem parseTimingLine_of_blank (l : List Char) (h : trimWs l = []) :
    parseTimingLine l = none := by
  unfold parseTimingLine
  rw [trimWs_nil_dropWhile l h]
  rfl

theorem isMetaMarker_of_blank (l : List Char) (h : trimWs l = []) :
    isMetaMarker l = false := by
  unfold isMetaMarker
  rw [h]
  rfl

/-- C10: a `NOTE`/`STYLE`/`REGION` line occurring among the text lines of an
open cue switches the scanner into metadata-discard mode: that line and all
following non-blank non-timing lines are excluded from the cue text, while the
text accumulated before it is still flushed as a cue with its original
timestamp at the next blank line or timing line. -/
theorem metadata_mid_cue_discard :
    ∀ (t : List Char) (txt : List (List Char)) (note : List Char)
      (junk rest : List (List Char)),
      isMetaMarker note = true →
      (∀ j ∈ junk, trimWs j ≠ [] ∧ parseTimingLine j = none) →
      txt ≠ [] →
      (∀ blankL : List Char, trimWs blankL = [] →
        scanGo (some t) txt false (note :: (junk ++ blankL :: rest))
          = save_cue (some t) txt ++ scanGo Option.none [] false rest)
      ∧ (∀ (tl t2 : List Char), parseTimingLine tl = some t2 → isMetaMarker tl = false →
        scanGo (some t) txt false (note :: (junk ++ tl :: rest))
          = save_cue (some t) txt ++ scanGo (some t2) [] false rest) := by
  intro t txt note junk rest hnote hjunk htxt
  have hstep : ∀ tail, scanGo (some t) txt false (note :: tail)
      = scanGo (some t) txt true tail := by
    intro tail
    simp [scanGo, hnote]
  constructor
  · intro blankL hb
    rw [hstep, scanGo_meta_skip junk (some t) txt (blankL :: rest) hjunk]
    simp [scanGo, isMetaMarker_of_blank blankL hb, parseTimingLine_of_blank blankL hb,
      hb, htxt]
  · intro tl t2 htl hm
    rw [hstep, scanGo_meta_skip junk (some t) txt (tl :: rest) hjunk]
    simp [scanGo, hm, htl, htxt]

theorem metadata_mid_cue_discard_witness :
    scanGo (some ("00:00:01.000".data)) ["<v A>kept text</v>".data] false
        ("NOTE a comment".data :: (["discarded line".data] ++ [] :: ["tail".data]))
      = save_cue (some ("00:00:01.000".data)) ["<v A>kept text</v>".data]
          ++ scanGo Option.none [] false ["tail".data] ∧
    scanGo (some ("00:00:01.000".data)) ["<v A>kept text</v>".data] false
        ("NOTE a comment".data ::
          (["discarded line".data] ++ "00:00:05.000 --> 00:00:06.000".data :: ["x".data]))
      = save_cue (some ("00:00:01.000".data)) ["<v A>kept text</v>".data]
          ++ scanGo (some ("00:00:05.000".data)) [] false ["x".data] :=
  ⟨(metadata_mid_cue_discard ("00:00:01.000".data) ["<v A>kept text</v>".data]
      ("NOTE a comment".data) ["discarded line".data] ["tail".data]
      (by decide) (by decide) (by decide)).1 [] (by decide),
    (metadata_mid_cue_discard ("00:00:01.000".data) ["<v A>kept text</v>".data]
      ("NOTE a comment".data) ["discarded line".data] ["x".data]
      (by decide) (by decide) (by decide)).2
      ("00:00:05.000 --> 00:00:06.000".data) ("00:00:05.000".data)
      (by decide) (by decide)⟩

/-! ### Tag stripping is the identity on its own output (claim C2, revisited) -/

theorem noTagMatch_nil : noTagMatch [] := by
  intro pre suf h
  exact absurd h.symm (by simp)

theorem noTagMatch_single (c : Char) : noTagMatch [c] := by
  intro pre suf h
  cases pre with
  | nil =>
    simp only [List.nil_append, List.cons.injEq] at h
    left
    rw [← h.2]
    simp
  | cons p pre' =>
    simp only [List.cons_append, List.cons.injEq] at h
    exact absurd h.2.symm (by simp)

theorem noTagMatch_tail (c : Char) (l : List Char) (h : noTagMatch (c :: l)) :
    noTagMatch l := by
  intro pre suf heq
  exact h (c :: pre) suf (by rw [List.cons_append, heq])

theorem noTagMatch_cons (c : Char) (l : List Char) (hc : c ≠ '<')
    (h : noTagMatch l) : noTagMatch (c :: l) := by
  intro pre suf heq
  cases pre with
  | nil =>
    simp only [List.nil_append, List.cons.injEq] at heq
    exact absurd heq.1 hc
  | cons p pre' =>
    simp only [List.cons_append, List.cons.injEq] at heq
    exact h pre' suf heq.2

theorem noTagMatch_cons_lt (l : List Char)
    (hhead : ('>' ∉ l) ∨ ∃ l', l = '>' :: l') (h : noTagMatch l) :
    noTagMatch ('<' :: l) := by
  intro pre suf heq
  cases pre with
  | nil =>
    simp only [List.nil_append, List.cons.injEq] at heq
    rw [← heq.2]
    exact hhead
  | cons p pre' =>
    simp only [List.cons_append, List.cons.injEq] at heq
    exact h pre' suf heq.2

theorem noTagMatch_infix (l A B : List Char) (h : noTagMatch (A ++ l ++ B)) :
    noTagMatch l := by
  intro pre suf heq
  have hdecomp : A ++ l ++ B = (A ++ pre) ++ '<' :: (suf ++ B) := by
    rw [heq]
    simp [List.append_assoc]
  rcases h (A ++ pre) (suf ++ B) hdecomp with h1 | ⟨s', hs⟩
  · left
    intro hmem
    exact h1 (List.mem_append_left _ hmem)
  · cases suf with
    | nil =>
      left
      simp
    | cons d ds =>
      right
      refine ⟨ds, ?_⟩
      rw [List.cons_append, List.cons.injEq] at hs
      rw [hs.1]

theorem trimWs_decomp (l : List Char) : ∃ A B, l = A ++ trimWs l ++ B := by
  refine ⟨l.takeWhile isWsChar,
    ((l.dropWhile isWsChar).reverse.takeWhile isWsChar).reverse, ?_⟩
  have h1 : l = l.takeWhile isWsChar ++ l.dropWhile isWsChar :=
    (List.takeWhile_append_dropWhile isWsChar l).symm
  have h2 : (l.dropWhile isWsChar).reverse
      = (l.dropWhile isWsChar).reverse.takeWhile isWsChar
        ++ (l.dropWhile isWsChar).reverse.dropWhile isWsChar :=
    (List.takeWhile_append_dropWhile isWsChar _).symm
  have h3 : l.dropWhile isWsChar
      = trimWs l ++ ((l.dropWhile isWsChar).reverse.takeWhile isWsChar).reverse := by
    have h2' := congrArg List.reverse h2
    rw [List.reverse_reverse, List.reverse_append] at h2'
    exact h2'
  conv_lhs => rw [h1, h3]
  rw [List.append_assoc]

theorem noTagMatch_trimWs (l : List Char) (h : noTagMatch l) :
    noTagMatch (trimWs l) := by
  obtain ⟨A, B, hAB⟩ := trimWs_decomp l
  exact noTagMatch_infix (trimWs l) A B (hAB ▸ h)

theorem stripTagsF_nil : ∀ fuel : Nat, stripTagsF fuel [] = [] := by
  intro fuel
  cases fuel <;> rfl

theorem mem_stripTagsF : ∀ (fuel : Nat) (l : List Char) (c : Char),
    c ∈ stripTagsF fuel l → c ∈ l := by
  intro fuel
  induction fuel with
  | zero =>
    intro l c h
    cases l with
    | nil => rw [stripTagsF_nil] at h; simp at h
    | cons a rest => exact h
  | succ f ih =>
    intro l c h
    cases l with
    | nil => rw [stripTagsF_nil] at h; simp at h
    | cons a rest =>
      by_cases ha : a = '<'
      · subst ha
        simp only [stripTagsF] at h
        by_cases hm : rest.takeWhile (fun x => x != '>') ≠ [] ∧
            (rest.takeWhile (fun x => x != '>')).length < rest.length
        · rw [if_pos hm] at h
          have := ih _ c h
          exact List.mem_cons_of_mem _ (List.mem_of_mem_drop this)
        · rw [if_neg hm] at h
          rcases List.mem_cons.mp h with rfl | h'
          · exact List.mem_cons_self _ _
          · exact List.mem_cons_of_mem _ (ih rest c h')
      · simp only [stripTagsF, if_neg ha] at h
        rcases List.mem_cons.mp h with rfl | h'
        · exact List.mem_cons_self _ _
        · exact List.mem_cons_of_mem _ (ih rest c h')

theorem takeWhile_gt_all (rest : List Char) (h : '>' ∉ rest) :
    rest.takeWhile (fun c => c != '>') = rest := by
  induction rest with
  | nil => rfl
  | cons a t ih =>
    have ha : a ≠ '>' := fun he => h (he ▸ List.mem_cons_self a t)
    rw [List.takeWhile_cons_of_pos (by simpa using ha)]
    rw [ih (fun hm => h (List.mem_cons_of_mem a hm))]

theorem takeWhile_gt_lt (rest : List Char) (h : '>' ∈ rest) :
    (rest.takeWhile (fun c => c != '>')).length < rest.length := by
  induction rest with
  | nil => simp at h
  | cons a t ih =>
    by_cases ha : a = '>'
    · rw [List.takeWhile_cons_of_neg (by simp [ha])]
      simp
    · have hmem : '>' ∈ t := by
        rcases List.mem_cons.mp h with he | hm
        · exact absurd he.symm ha
        · exact hm
      rw [List.takeWhile_cons_of_pos (by simpa using ha)]
      simpa using ih hmem

theorem stripTagsF_cons_ne (fuel : Nat) (c : Char) (r : List Char) (hc : c ≠ '<') :
    ∃ u, stripTagsF fuel (c :: r) = c :: u := by
  cases fuel with
  | zero => exact ⟨r, rfl⟩
  | succ f => exact ⟨stripTagsF f r, by simp [stripTagsF, hc]⟩

theorem stripTagsF_of_noTagMatch : ∀ (fuel : Nat) (l : List Char),
    noTagMatch l → stripTagsF fuel l = l := by
  intro fuel
  induction fuel with
  | zero => intro l _; cases l <;> rfl
  | succ f ih =>
    intro l h
    cases l with
    | nil => rfl
    | cons c rest =>
      by_cases hc : c = '<'
      · subst hc
        have hcond : ¬(rest.takeWhile (fun x => x != '>') ≠ [] ∧
            (rest.takeWhile (fun x => x != '>')).length < rest.length) := by
          rcases h [] rest rfl with hng | ⟨rest', hr⟩
          · rw [takeWhile_gt_all rest hng]
            simp
          · rw [hr, List.takeWhile_cons_of_neg (by simp)]
            simp
        simp only [stripTagsF]
        rw [if_neg hcond, ih rest (noTagMatch_tail _ _ h)]
        simp
      · simp only [stripTagsF, if_neg hc]
        rw [ih rest (noTagMatch_tail _ _ h)]

theorem noTagMatch_stripTagsF : ∀ (fuel : Nat) (l : List Char),
    l.length ≤ fuel → noTagMatch (stripTagsF fuel l) := by
  intro fuel
  induction fuel with
  | zero =>
    intro l hl
    have : l = [] := List.length_eq_zero.mp (Nat.le_zero.mp hl)
    subst this
    exact noTagMatch_nil
  | succ f ih =>
    intro l hl
    cases l with
    | nil => exact noTagMatch_nil
    | cons c rest =>
      have hrest : rest.length ≤ f := by
        simpa using Nat.succ_le_succ_iff.mp (by simpa using hl)
      by_cases hc : c = '<'
      · subst hc
        by_cases hm : rest.takeWhile (fun x => x != '>') ≠ [] ∧
            (rest.takeWhile (fun x => x != '>')).length < rest.length
        · rw [show stripTagsF (f + 1) ('<' :: rest)
              = stripTagsF f (rest.drop ((rest.takeWhile (fun x => x != '>')).length + 1))
              from by simp only [stripTagsF]; rw [if_pos hm]; simp]
          refine ih _ ?_
          rw [List.length_drop]
          omega
        · rw [show stripTagsF (f + 1) ('<' :: rest) = '<' :: stripTagsF f rest
              from by simp only [stripTagsF]; rw [if_neg hm]; simp]
          refine noTagMatch_cons_lt _ ?_ (ih rest hrest)
          rcases Decidable.not_and_iff_or_not.mp hm with hnil | hlen
          · rw [not_not] at hnil
            cases hr : rest with
            | nil =>
              left
              subst hr
              rw [stripTagsF_nil]
              simp
            | cons r0 rest' =>
              have hr0 : r0 = '>' := by
                subst hr
                by_contra hne
                rw [List.takeWhile_cons_of_pos (by simpa using hne)] at hnil
                exact absurd hnil (by simp)
              right
              subst hr
              subst hr0
              exact stripTagsF_cons_ne f '>' rest' (by decide)
          · left
            intro hmem
            have hgt : '>' ∈ rest := mem_stripTagsF f rest '>' hmem
            exact hlen (takeWhile_gt_lt rest hgt)
      · rw [show stripTagsF (f + 1) (c :: rest) = c :: stripTagsF f rest
            from by simp [stripTagsF, hc]]
        exact noTagMatch_cons c _ hc (ih rest hrest)

theorem stripTags_of_noTagMatch (l : List Char) (h : noTagMatch l) :
    stripTags l = l :=
  stripTagsF_of_noTagMatch l.length l h

theorem noTagMatch_stripTags (l : List Char) : noTagMatch (stripTags l) :=
  noTagMatch_stripTagsF l.length l le_rfl

theorem noTagMatch_collapseWs : ∀ l : List Char,
    noTagMatch l → noTagMatch (collapseWs l) := by
  intro l
  induction l with
  | nil => intro _; exact noTagMatch_nil
  | cons a t ih =>
    intro h
    cases t with
    | nil =>
      simp only [collapseWs]
      by_cases ha : isWsChar a = true
      · rw [if_pos ha]; exact noTagMatch_single ' '
      · rw [if_neg ha]; exact noTagMatch_single a
    | cons b r =>
      have hout : noTagMatch (collapseWs (b :: r)) := ih (noTagMatch_tail _ _ h)
      simp only [collapseWs]
      by_cases hab : (isWsChar a && isWsChar b) = true
      · rw [if_pos hab]; exact hout
      · rw [if_neg hab]
        by_cases ha : isWsChar a = true
        · rw [if_pos ha]
          exact noTagMatch_cons ' ' _ (by decide) hout
        · rw [if_neg ha]
          by_cases hlt : a = '<'
          · subst hlt
            refine noTagMatch_cons_lt _ ?_ hout
            rcases h [] (b :: r) rfl with hng | ⟨suf', hs⟩
            · left
              intro hmem
              rcases mem_collapseWs (b :: r) '>' hmem with hm | hsp
              · exact hng hm
              · exact absurd hsp (by decide)
            · right
              rw [List.cons.injEq] at hs
              obtain ⟨u, hu⟩ := collapseWs_cons_of_head b r
                (by rw [hs.1]; decide)
              rw [hu, hs.1]
              exact ⟨u, rfl⟩
          · exact noTagMatch_cons a _ hlt hout

/-! ### Claim C2 -/

/-- C2 (amended): the text-cleaning function is idempotent on every text that
does not contain `&`: on such texts entity decoding is the identity, one
tag-stripping pass leaves no remaining tag match (every surviving `<` is
immediately followed by `>` or has no later `>`), that property survives
whitespace collapsing and trimming, and collapsing-then-trimming is a
projection.  Idempotence fails in general only because entity decoding can
synthesize new tags or entities. -/
theorem clean_text_idempotent_amp_free :
    ∀ s : List Char, '&' ∉ s →
      clean_text (clean_text s) = clean_text s := by
  intro s h1
  have hampT : '&' ∉ stripTags s :=
    fun hm => h1 (mem_stripTagsF s.length s '&' hm)
  have e1 : clean_text s = trimWs (collapseWs (stripTags s)) := by
    unfold clean_text
    rw [decode_html_entities_id _ hampT]
  have hamp' : '&' ∉ clean_text s := by
    intro hc
    rw [e1] at hc
    rcases mem_collapseWs _ '&' (mem_of_trimWs _ '&' hc) with hm | hsp
    · exact hampT hm
    · exact absurd hsp (by decide)
  have hnt : noTagMatch (clean_text s) := by
    rw [e1]
    exact noTagMatch_trimWs _ (noTagMatch_collapseWs _ (noTagMatch_stripTags s))
  have e2 : clean_text (clean_text s) = trimWs (collapseWs (clean_text s)) := by
    conv_lhs =>
      rw [show clean_text (clean_text s)
        = trimWs (collapseWs (decode_html_entities (stripTags (clean_text s)))) from rfl]
    rw [stripTags_of_noTagMatch _ hnt, decode_html_entities_id _ hamp']
  rw [e2, e1, collapseWs_trim_collapse, trimWs_idem]

theorem clean_text_idempotent_amp_free_witness :
    ('&' ∉ ("a <b> c <unclosed text ".data)) ∧
      clean_text (clean_text ("a <b> c <unclosed text ".data))
        = clean_text ("a <b> c <unclosed text ".data) :=
  ⟨by decide, clean_text_idempotent_amp_free ("a <b> c <unclosed text ".data) (by decide)⟩
